import Mathlib

/-!
Verification of the guardians-sdk core: the array-backed Merkle tree engine
(package `merkle`) and the zk-certificate binding protocol
(package `zkcertificate`), via a shallow embedding in Lean.

Field elements are modelled as `Nat` (the Go code stores them as
`uint256.Int`, i.e. naturals below `2^256`).  The Poseidon hash is an
external collaborator; the tree engine is parametric in an abstract hash
function `H : Nat → Nat → Nat`, with the `uint256.FromBig` overflow check of
`computeNodeHash` made explicit.  Fallible Go code (errors, slice-index
panics) is modelled with `Option`: a Go panic from an out-of-range slice
access and a returned error both become `none`.
-/

namespace Merkle

/-- The `uint256` value range bound: `uint256.FromBig` fails exactly when the
value does not fit below `2^256`. -/
def uint256Bound : Nat := 2 ^ 256

/-- A checked list write.  Go's `nodes[i] = v` panics when `i` is out of
range; here that is `none`. -/
def listWrite (nodes : List Nat) (i v : Nat) : Option (List Nat) :=
  if i < nodes.length then some (nodes.set i v) else none

/-- `Tree` from the source: an array of nodes.  `TreeNode` wraps a single
`uint256` value, so a node is modelled directly as a `Nat`. -/
structure Tree where
  Nodes : List Nat
deriving DecidableEq

/-- `Proof` from the source: the sibling path and the `Indices` bitmask
(the source stores `Indices` as a Go `int`; it is always nonnegative). -/
structure Proof where
  Path : List Nat
  Indices : Nat
deriving DecidableEq

/-- `GetParentIndex(i) = (i - 1) / 2`.  For `i = 0` Go computes `-1/2 = 0`
(truncated division), which agrees with `Nat` subtraction/division. -/
def GetParentIndex (i : Nat) : Nat := (i - 1) / 2

/-- `IsRightChild(i) = (i % 2 == 0)`: with children at `2i+1` and `2i+2`,
the even-indexed child is the second ("right") one. -/
def IsRightChild (i : Nat) : Bool := i % 2 == 0

/-- `GetSiblingIndex`: `i - 1` for a right child, `i + 1` otherwise. -/
def GetSiblingIndex (i : Nat) : Nat :=
  if IsRightChild i then i - 1 else i + 1

/-- `computeNodeHash(left, right)`: hash the two children, then convert the
result back to `uint256`; the conversion fails ("invalid hash") when the
value overflows `2^256`. -/
def computeNodeHash (H : Nat → Nat → Nat) (left right : Nat) : Option Nat :=
  let val := H left right
  if val < uint256Bound then some val else none

/-- `getChildrenOf(i, nodes) = (nodes[2i+1], nodes[2i+2])`; the Go slice
reads panic when out of range, modelled by `none`. -/
def getChildrenOf (i : Nat) (nodes : List Nat) : Option (Nat × Nat) :=
  match nodes[2 * i + 1]?, nodes[2 * i + 2]? with
  | some l, some r => some (l, r)
  | _, _ => none

/-- `computeChildrenHash(i, nodes) = computeNodeHash(getChildrenOf(i, nodes))`. -/
def computeChildrenHash (H : Nat → Nat → Nat) (i : Nat) (nodes : List Nat) :
    Option Nat :=
  match getChildrenOf i nodes with
  | none => none
  | some (l, r) => computeNodeHash H l r

/-- The inner loop of `NewEmptyTree`:
`for j := 0; j < nodesAmount; j++ { nodes[firstNodeIndex+j].Value = leafValue }`.
All writes are in range in every actual call (checked writes). -/
def setRange (v : Nat) : Nat → Nat → List Nat → Option (List Nat)
  | _, 0, nodes => some nodes
  | start, amount + 1, nodes =>
    match listWrite nodes start v with
    | none => none
    | some nodes' => setRange v (start + 1) amount nodes'

/-- The outer loop of `NewEmptyTree`, one step per level (`rem` iterations
remain; the Go loop runs `i = 0 .. depth-1`).  Arguments mirror the Go loop
state: `nodesAmount`, `firstNodeIndex` (value before this iteration's
subtraction), `leafValue`, and the node array. -/
def emptyTreeLevels (H : Nat → Nat → Nat) :
    Nat → Nat → Nat → Nat → List Nat → Option (List Nat)
  | 0, _, _, _, nodes => some nodes
  | rem + 1, nodesAmount, firstNodeIndex, leafValue, nodes =>
    let f := firstNodeIndex - nodesAmount
    match setRange leafValue f nodesAmount nodes with
    | none => none
    | some nodes' =>
      if 0 < f then
        match computeChildrenHash H (f - 1) nodes' with
        | none => none
        | some v => emptyTreeLevels H rem (nodesAmount / 2) f v nodes'
      else
        emptyTreeLevels H rem (nodesAmount / 2) f leafValue nodes'

/-- `NewEmptyTree(depth, leafValue)`: rejects `depth < 1`, allocates
`1<<depth - 1` nodes (zero-initialised, as Go's `make` does), then fills the
levels bottom-up, carrying each level's single representative value. -/
def NewEmptyTree (H : Nat → Nat → Nat) (depth : Nat) (leafValue : Nat) :
    Option Tree :=
  if depth < 1 then none
  else
    match emptyTreeLevels H depth (2 ^ (depth - 1)) (2 ^ depth - 1) leafValue
        (List.replicate (2 ^ depth - 1) 0) with
    | none => none
    | some nodes => some ⟨nodes⟩

/-- `GetLeavesAmount() = (len(nodes) + 1) / 2`. -/
def Tree.GetLeavesAmount (t : Tree) : Nat := (t.Nodes.length + 1) / 2

/-- `Root() = nodes[0]` (a Go panic on an empty array is `none`). -/
def Tree.Root (t : Tree) : Option Nat := t.Nodes[0]?

/-- The ancestor-recomputation loop of `SetLeaf`:
`for j := GetParentIndex(j); j > 0; j = GetParentIndex(j) { nodes[j] = computeChildrenHash(j, nodes) }`,
entered here with the loop variable already advanced to the first parent. -/
def setLeafAncestors (H : Nat → Nat → Nat) (j : Nat) (nodes : List Nat) :
    Option (List Nat) :=
  if j = 0 then some nodes
  else
    match computeChildrenHash H j nodes with
    | none => none
    | some v =>
      match listWrite nodes j v with
      | none => none
      | some nodes' => setLeafAncestors H (GetParentIndex j) nodes'
termination_by j
decreasing_by simp only [GetParentIndex]; omega

/-- `SetLeaf(i, val)`: validates the index, overwrites the leaf at array
position `len(nodes) - leavesAmount + i`, recomputes every ancestor up to
(but excluding) the root, then recomputes the root.  The source's Go `int`
index cannot be negative here, so only the `i >= leavesAmount` branch of the
validation is modelled. -/
def Tree.SetLeaf (H : Nat → Nat → Nat) (t : Tree) (i : Nat) (val : Nat) :
    Option Tree :=
  let leavesAmount := t.GetLeavesAmount
  if i ≥ leavesAmount then none
  else
    let j := t.Nodes.length - leavesAmount + i
    match listWrite t.Nodes j val with
    | none => none
    | some nodes₀ =>
      match setLeafAncestors H (GetParentIndex j) nodes₀ with
      | none => none
      | some nodes₁ =>
        match computeChildrenHash H 0 nodes₁ with
        | none => none
        | some r =>
          match listWrite nodes₁ 0 r with
          | none => none
          | some nodes₂ => some ⟨nodes₂⟩

/-- The loop of `GetProof`: walks from the leaf to the root, oring
`j % 2 << level` into the bitmask and writing the sibling node into
`Path[level]`. -/
def getProofLoop (nodes : List Nat) (j level : Nat) (path : List Nat)
    (indices : Nat) : Option (List Nat × Nat) :=
  if j = 0 then some (path, indices)
  else
    let indices' := indices ||| ((j % 2) <<< level)
    match nodes[GetSiblingIndex j]? with
    | none => none
    | some sibling =>
      match listWrite path level sibling with
      | none => none
      | some path' => getProofLoop nodes (GetParentIndex j) (level + 1) path' indices'
termination_by j
decreasing_by simp only [GetParentIndex]; omega

/-- `GetProof(i)`: validates the index, allocates a path of
`int(math.Log2(len(nodes)+1))` entries (the float computation is exact for
the power-of-two sizes that arise, hence `Nat.log2`), runs the walk, and
finally overwrites the last path entry with the root. -/
def Tree.GetProof (t : Tree) (i : Nat) : Option Proof :=
  let leavesAmount := t.GetLeavesAmount
  if i ≥ leavesAmount then none
  else
    let pathLen := Nat.log2 (t.Nodes.length + 1)
    let j := t.Nodes.length - leavesAmount + i
    match getProofLoop t.Nodes j 0 (List.replicate pathLen 0) 0 with
    | none => none
    | some (path, indices) =>
      match t.Root with
      | none => none
      | some root =>
        match listWrite path (pathLen - 1) root with
        | none => none
        | some path' => some ⟨path', indices⟩

/-! ### Derived walk descriptions

Pure descriptions of the leaf-to-root walk, used to state and prove the
properties of `SetLeaf` and `GetProof`.  They are not part of the source;
each is a straightforward reading of the index arithmetic above. -/

/-- Number of steps from node `j` up to the root (node 0). -/
def walkLen (j : Nat) : Nat :=
  if j = 0 then 0 else walkLen (GetParentIndex j) + 1
termination_by j
decreasing_by simp only [GetParentIndex]; omega

/-- The array index of the node `k` levels above node `j`. -/
def pathNode (j : Nat) : Nat → Nat
  | 0 => j
  | k + 1 => pathNode (GetParentIndex j) k

/-- The sibling values recorded along the walk from node `j` to the root. -/
def pathSiblings (nodes : List Nat) (j : Nat) : List Nat :=
  if j = 0 then []
  else nodes.getD (GetSiblingIndex j) 0 :: pathSiblings nodes (GetParentIndex j)
termination_by j
decreasing_by simp only [GetParentIndex]; omega

/-- The direction bitmask accumulated along the walk from node `j`:
bit `k` is `pathNode j k % 2`. -/
def pathIndices (j : Nat) : Nat :=
  if j = 0 then 0 else j % 2 + 2 * pathIndices (GetParentIndex j)
termination_by j
decreasing_by simp only [GetParentIndex]; omega

/-- Membership in the chain `{j, parent j, ...}` of strictly positive nodes
walked (and written) by the `SetLeaf` ancestor loop started at `j`. -/
def chainMem (j p : Nat) : Bool :=
  if j = 0 then false else p == j || chainMem (GetParentIndex j) p
termination_by j
decreasing_by simp only [GetParentIndex]; omega

/-- Every proper ancestor of `j` (including the root) stores the hash of its
two children. -/
def chainOK (H : Nat → Nat → Nat) (nodes : List Nat) (j : Nat) : Prop :=
  if j = 0 then True
  else
    (nodes.getD (GetParentIndex j) 0 =
      H (nodes.getD (2 * GetParentIndex j + 1) 0)
        (nodes.getD (2 * GetParentIndex j + 2) 0)) ∧
    chainOK H nodes (GetParentIndex j)
termination_by j
decreasing_by simp only [GetParentIndex]; omega

/-- Level-by-level recombination of a leaf value with the sibling entries of
a proof, as the tree hashing dictates: the bit for a level is `1` exactly
when the current node has an odd index, i.e. is the first ("left") hash
argument, so bit `1` combines as `H current sibling` and bit `0` as
`H sibling current`. -/
def reconstructRoot (H : Nat → Nat → Nat) (cur : Nat) :
    List Nat → Nat → Nat
  | [], _ => cur
  | s :: rest, idx =>
    reconstructRoot H (if idx % 2 = 1 then H cur s else H s cur) rest (idx / 2)

/-- Modelled from the spec: recombination exactly as the claim words it —
"at level `k` computing `Hash(sibling, current)` when bit `k` of `Indices`
is 1 ... and `Hash(current, sibling)` when bit `k` is 0".  This is the
mirror image of `reconstructRoot` and is compared against it. -/
def reconstructRootSpec (H : Nat → Nat → Nat) (cur : Nat) :
    List Nat → Nat → Nat
  | [], _ => cur
  | s :: rest, idx =>
    reconstructRootSpec H (if idx % 2 = 1 then H s cur else H cur s) rest (idx / 2)

/-- `k`-fold pairwise self-hashing: `v`, `H v v`, `H (H v v) (H v v)`, ... -/
def iterHash (H : Nat → Nat → Nat) (v : Nat) : Nat → Nat
  | 0 => v
  | k + 1 => H (iterHash H v k) (iterHash H v k)

/-- The structural invariant of §3 of the spec: every internal node at index
`p` stores `Hash(Nodes[2p+1], Nodes[2p+2])`. -/
def hashInvariant (H : Nat → Nat → Nat) (t : Tree) : Prop :=
  ∀ p < t.Nodes.length, 2 * p + 2 < t.Nodes.length →
    t.Nodes.getD p 0 =
      H (t.Nodes.getD (2 * p + 1) 0) (t.Nodes.getD (2 * p + 2) 0)

/-- The array position of leaf `i`. -/
def leafPos (t : Tree) (i : Nat) : Nat :=
  t.Nodes.length - t.GetLeavesAmount + i

/-- A concrete stand-in hash used to instantiate the abstract Poseidon hash
in witnesses and counterexamples; it is not symmetric and always fits in a
`uint256`. -/
def testHash (a b : Nat) : Nat := (a + 2 * b + 1) % uint256Bound

/-- An unsigned decimal-digit run: `none` on an empty run or any non-digit
character, otherwise the denoted number. -/
def parseDigits (l : List Char) : Option Nat :=
  if l.isEmpty then none
  else if l.all Char.isDigit then
    some (l.foldl (fun acc c => 10 * acc + (c.toNat - 48)) 0)
  else none

/-- Modelled from the spec (§6) and the external `uint256.FromDecimal` used
by `TreeNode.UnmarshalText`: parsing accepts only a nonempty string of
decimal digits whose value fits in a `uint256`; a sign character or any
other non-digit fails. -/
def fromDecimal (s : String) : Option Nat :=
  match parseDigits s.data with
  | none => none
  | some v => if v < uint256Bound then some v else none

/-- `TreeNode.UnmarshalText` parses the decimal text via `uint256.FromDecimal`. -/
def TreeNode.UnmarshalText (s : String) : Option Nat := fromDecimal s

end Merkle

namespace ZkCertificate

/-!
Shallow embedding of `pkg/zkcertificate/certificate.go`.

Curve coordinates and signature components are `big.Int` values in the
source, modelled as `Int`.  The Poseidon hash and the baby-Jubjub signature
check are external collaborators (go-iden3-crypto): the definitions are
parametric in `poseidonHash : List Int → Option Int` (`none` is a hash
error) and `verifyPoseidon` (the boolean result of `PublicKey.VerifyPoseidon`).
The `Hash` type of the package (not part of the sources) is, per the spec, a
canonically reduced field element, so it is modelled as the integer itself
and `HashFromBigInt` is the identity. -/

/-- `babyjub.Point`: a curve point with `big.Int` coordinates. -/
structure Point where
  X : Int
  Y : Int
deriving DecidableEq

/-- `babyjub.PublicKey` is a curve point. -/
structure PublicKey where
  X : Int
  Y : Int
deriving DecidableEq

/-- `babyjub.Signature`: a point `R8` and a scalar `S`. -/
structure Signature where
  R8 : Point
  S : Int
deriving DecidableEq

/-- `ProviderData`: provider public key and signature. -/
structure ProviderData where
  PublicKey : PublicKey
  Signature : Signature
deriving DecidableEq

/-- `Certificate[T]` with its nine fields.  `ExpirationDate` is kept as the
Unix-seconds value that `LeafHash` consumes, `Standard` as its tag string. -/
structure Certificate (T : Type) where
  HolderCommitment : Int
  LeafHash : Int
  DID : String
  Standard : String
  Content : T
  ContentHash : Int
  ExpirationDate : Int
  Provider : ProviderData
  RandomSalt : Int
deriving DecidableEq

/-- `VerifySignature(providerKey, contentHash, commitmentHash, signature)`:
hashes the pair and checks the signature against the recomputed message;
`none` models the error from a failed hash computation. -/
def VerifySignature (poseidonHash : List Int → Option Int)
    (verifyPoseidon : PublicKey → Int → Signature → Bool)
    (providerKey : PublicKey) (contentHash commitmentHash : Int)
    (signature : Signature) : Option Bool :=
  match poseidonHash [contentHash, commitmentHash] with
  | none => none
  | some message => some (verifyPoseidon providerKey message signature)

/-- `LeafHash(contentHash, providerPublicKey, signature, commitmentHash,
salt, expirationDate)`: the Poseidon hash of the nine ordered field
elements; `expirationDate` enters as its Unix seconds. -/
def LeafHash (poseidonHash : List Int → Option Int) (contentHash : Int)
    (providerPublicKey : PublicKey) (signature : Signature)
    (commitmentHash : Int) (salt : Int) (expirationDateUnix : Int) :
    Option Int :=
  poseidonHash
    [contentHash, providerPublicKey.X, providerPublicKey.Y, signature.S,
      signature.R8.X, signature.R8.Y, commitmentHash, salt, expirationDateUnix]

/-- `DID(standard, leafHash) = "did:" + standard + ":" + leafHash`, the leaf
hash rendered as its decimal string. -/
def DID (standard : String) (leafHash : Int) : String :=
  "did:" ++ standard ++ ":" ++ toString leafHash

/-- `New(holderCommitment, content, providerPublicKey, providerSignature,
salt, expirationDate)`.  The generic `Content` capability (`Hash()`,
`Standard()`) is passed as the two functions `contentHashFn` and
`contentStandardFn`.  Each failing step aborts with its error string, as in
the source. -/
def New {T : Type} (poseidonHash : List Int → Option Int)
    (verifyPoseidon : PublicKey → Int → Signature → Bool)
    (contentHashFn : T → Option Int) (contentStandardFn : T → String)
    (holderCommitment : Int) (content : T) (providerPublicKey : PublicKey)
    (providerSignature : Signature) (salt : Int)
    (expirationDateUnix : Int) : Except String (Certificate T) :=
  match contentHashFn content with
  | none => .error "hash certificate content"
  | some contentHash =>
    match VerifySignature poseidonHash verifyPoseidon providerPublicKey
        contentHash holderCommitment providerSignature with
    | none => .error "verify signature"
    | some false => .error "invalid signature"
    | some true =>
      match LeafHash poseidonHash contentHash providerPublicKey
          providerSignature holderCommitment salt expirationDateUnix with
      | none => .error "compute leaf hash"
      | some leafHash =>
        let standard := contentStandardFn content
        .ok
          { HolderCommitment := holderCommitment
            LeafHash := leafHash
            DID := DID standard leafHash
            Standard := standard
            Content := content
            ContentHash := contentHash
            ExpirationDate := expirationDateUnix
            Provider := ⟨providerPublicKey, providerSignature⟩
            RandomSalt := salt }

/-- The JSON data-transfer object of `ProviderData`: the five decimal
strings `ax`, `bx`, `s`, `r8x`, `r8y`. -/
structure providerDataDTO where
  Ax : String
  Bx : String
  S : String
  R8x : String
  R8y : String
deriving DecidableEq

/-- Modelled from the Go standard library `big.Int.SetString(s, 10)` used by
`ProviderData.UnmarshalJSON`: an optional leading `+` or `-` sign followed
by a nonempty run of decimal digits; the whole string must be consumed, and
a signed (in particular negative) decimal string is accepted. -/
def setStringBase10 (s : String) : Option Int :=
  match s.data with
  | [] => none
  | c :: rest =>
    if c = '-' then (Merkle.parseDigits rest).map (fun n => -(Int.ofNat n))
    else if c = '+' then (Merkle.parseDigits rest).map (fun n => Int.ofNat n)
    else (Merkle.parseDigits (c :: rest)).map (fun n => Int.ofNat n)

/-- `ProviderData.UnmarshalJSON`, modelled from the decoded DTO onward (the
surrounding `json.Unmarshal` of the object into the five strings is an
external collaborator): each coordinate is parsed with
`big.Int.SetString(_, 10)`, failing with the respective message; the parse
order of the source (`ax`, `bx`, `r8x`, `r8y`, `s`) is kept. -/
def ProviderData.UnmarshalJSON (dto : providerDataDTO) :
    Except String ProviderData :=
  match setStringBase10 dto.Ax with
  | none => .error "invalid x coordinate of public key point"
  | some ax =>
    match setStringBase10 dto.Bx with
    | none => .error "invalid y coordinate of public key point"
    | some bx =>
      match setStringBase10 dto.R8x with
      | none => .error "invalid x coordinate of signature r8 point"
      | some r8x =>
        match setStringBase10 dto.R8y with
        | none => .error "invalid y coordinate of signature r8 point"
        | some r8y =>
          match setStringBase10 dto.S with
          | none => .error "invalid s component of signature"
          | some s =>
            .ok ⟨⟨ax, bx⟩, ⟨⟨r8x, r8y⟩, s⟩⟩

/-- A string is a valid decimal integer: optionally signed, nonempty
digits.  This is the class of strings the spec's §6 calls "a valid decimal
integer". -/
def isValidIntegerString (s : String) : Bool :=
  match s.data with
  | [] => false
  | c :: rest =>
    if c = '-' ∨ c = '+' then !rest.isEmpty && rest.all Char.isDigit
    else (c :: rest).all Char.isDigit

/-- A string denoting a negative integer: a `-` sign followed by a nonempty
digit run. -/
def isNegativeIntegerString (s : String) : Bool :=
  match s.data with
  | [] => false
  | c :: rest => c = '-' && (!rest.isEmpty && rest.all Char.isDigit)

/-- A concrete stand-in for the external Poseidon hash over `big.Int`
values, used in witnesses and counterexamples. -/
def testPoseidon (l : List Int) : Option Int :=
  some (l.foldl (fun a b => a + 2 * b + 1) 0)

/-- A stand-in baby-Jubjub verifier that accepts everything. -/
def testVerifyTrue : PublicKey → Int → Signature → Bool := fun _ _ _ => true

/-- A stand-in baby-Jubjub verifier that rejects everything. -/
def testVerifyFalse : PublicKey → Int → Signature → Bool := fun _ _ _ => false

/-- The concrete certificate produced by `New` at the witness inputs of the
leaf-hash claim: content hash 1, provider key (2, 3), signature
((4, 5), 6), commitment 7, salt 8, expiration 9; the leaf hash is the
stand-in Poseidon fold of the nine elements, 99. -/
def witnessCert : Certificate Unit :=
  ⟨7, 99, DID "std" 99, "std", (), 1, 9, ⟨⟨2, 3⟩, ⟨⟨4, 5⟩, 6⟩⟩, 8⟩

end ZkCertificate

namespace Merkle

/-! ### Basic index and list lemmas -/

lemma parent_lt {j : Nat} (h : j ≠ 0) : GetParentIndex j < j := by
  simp only [GetParentIndex]; omega

lemma parent_succ {j : Nat} (h : j ≠ 0) :
    GetParentIndex j + 1 = (j + 1) / 2 := by
  simp only [GetParentIndex]; omega

lemma getD_set_self {l : List Nat} {i v : Nat} (h : i < l.length) :
    (l.set i v).getD i 0 = v := by
  simp [List.getD_eq_getElem?_getD, List.getElem?_set, h]

lemma getD_set_ne {l : List Nat} {i j v : Nat} (h : i ≠ j) :
    (l.set i v).getD j 0 = l.getD j 0 := by
  simp [List.getD_eq_getElem?_getD, List.getElem?_set, h]

lemma getD_replicate {n m : Nat} : (List.replicate n 0).getD m 0 = 0 := by
  simp only [List.getD_eq_getElem?_getD, List.getElem?_replicate]
  split <;> rfl

lemma getElem?_eq_getD {l : List Nat} {i : Nat} (h : i < l.length) :
    l[i]? = some (l.getD i 0) := by
  simp [List.getD_eq_getElem?_getD, List.getElem?_eq_getElem h]

lemma listWrite_some {l : List Nat} {i v : Nat} (h : i < l.length) :
    listWrite l i v = some (l.set i v) := by
  simp [listWrite, h]

/-! ### Walk lemmas -/

lemma walkLen_zero : walkLen 0 = 0 := by simp [walkLen]

lemma walkLen_parent {j : Nat} (h : j ≠ 0) :
    walkLen j = walkLen (GetParentIndex j) + 1 := by
  rw [walkLen]; simp [h]

/-- Nodes in the level band `[2^k - 1, 2^(k+1) - 2]` are `k` steps from the
root. -/
lemma walkLen_band : ∀ k p, 2 ^ k - 1 ≤ p → p < 2 ^ (k + 1) - 1 →
    walkLen p = k := by
  intro k
  induction k with
  | zero => intro p h1 h2; interval_cases p; exact walkLen_zero
  | succ k ih =>
    intro p h1 h2
    have hp : p ≠ 0 := by
      have : (1:Nat) ≤ 2 ^ (k + 1) - 1 := by
        have : (2:Nat) ≤ 2 ^ (k + 1) := by
          calc (2:Nat) = 2 ^ 1 := rfl
          _ ≤ 2 ^ (k + 1) := Nat.pow_le_pow_right (by norm_num) (by omega)
        omega
      omega
    have h2k : (1:Nat) ≤ 2 ^ k := Nat.one_le_two_pow
    have e1 : 2 ^ (k + 1) = 2 * 2 ^ k := by ring
    have e2 : 2 ^ (k + 1 + 1) = 4 * 2 ^ k := by ring
    rw [e1] at h1
    rw [e2] at h2
    rw [walkLen_parent hp, ih (GetParentIndex p) ?_ ?_]
    · simp only [GetParentIndex]; omega
    · rw [e1]; simp only [GetParentIndex]; omega

lemma pathNode_zero {j : Nat} : pathNode j 0 = j := rfl

lemma pathNode_succ {j k : Nat} :
    pathNode j (k + 1) = pathNode (GetParentIndex j) k := rfl

lemma pathSiblings_nil : pathSiblings nodes 0 = [] := by simp [pathSiblings]

lemma pathSiblings_cons {nodes : List Nat} {j : Nat} (h : j ≠ 0) :
    pathSiblings nodes j =
      nodes.getD (GetSiblingIndex j) 0 :: pathSiblings nodes (GetParentIndex j) := by
  rw [pathSiblings]; simp [h]

lemma pathSiblings_length (nodes : List Nat) (j : Nat) :
    (pathSiblings nodes j).length = walkLen j := by
  induction j using Nat.strong_induction_on with
  | _ j ih =>
    by_cases h : j = 0
    · subst h; simp [pathSiblings_nil, walkLen_zero]
    · rw [pathSiblings_cons h, walkLen_parent h]
      simp [ih _ (parent_lt h)]

lemma pathSiblings_getD {nodes : List Nat} :
    ∀ k j, k < walkLen j →
      (pathSiblings nodes j).getD k 0 =
        nodes.getD (GetSiblingIndex (pathNode j k)) 0 := by
  intro k
  induction k with
  | zero =>
    intro j hk
    have h : j ≠ 0 := by
      intro h; subst h; rw [walkLen_zero] at hk; omega
    rw [pathSiblings_cons h]; simp [pathNode_zero]
  | succ k ih =>
    intro j hk
    have h : j ≠ 0 := by
      intro h; subst h; rw [walkLen_zero] at hk; omega
    rw [pathSiblings_cons h, pathNode_succ]
    simpa using ih (GetParentIndex j) (by rw [walkLen_parent h] at hk; omega)

lemma pathIndices_zero : pathIndices 0 = 0 := by simp [pathIndices]

lemma pathIndices_step {j : Nat} (h : j ≠ 0) :
    pathIndices j = j % 2 + 2 * pathIndices (GetParentIndex j) := by
  rw [pathIndices]; simp [h]

lemma pathIndices_lt (j : Nat) : pathIndices j < 2 ^ walkLen j := by
  induction j using Nat.strong_induction_on with
  | _ j ih =>
    by_cases h : j = 0
    · subst h; simp [pathIndices_zero, walkLen_zero]
    · rw [pathIndices_step h, walkLen_parent h]
      have := ih _ (parent_lt h)
      have hj2 : j % 2 < 2 := Nat.mod_lt _ (by norm_num)
      have : 2 ^ (walkLen (GetParentIndex j) + 1) =
          2 * 2 ^ walkLen (GetParentIndex j) := by ring
      omega

lemma pathIndices_testBit :
    ∀ k j, k < walkLen j →
      (pathIndices j).testBit k = decide (pathNode j k % 2 = 1) := by
  intro k
  induction k with
  | zero =>
    intro j hk
    have h : j ≠ 0 := by
      intro h; subst h; rw [walkLen_zero] at hk; omega
    rw [pathIndices_step h, Nat.testBit_zero, pathNode_zero]
    have : (j % 2 + 2 * pathIndices (GetParentIndex j)) % 2 = j % 2 := by
      omega
    rw [this]
  | succ k ih =>
    intro j hk
    have h : j ≠ 0 := by
      intro h; subst h; rw [walkLen_zero] at hk; omega
    rw [pathIndices_step h, Nat.testBit_succ, pathNode_succ]
    have hdiv : (j % 2 + 2 * pathIndices (GetParentIndex j)) / 2 =
        pathIndices (GetParentIndex j) := by omega
    rw [hdiv]
    exact ih (GetParentIndex j) (by rw [walkLen_parent h] at hk; omega)

/-! ### `chainMem` lemmas -/

lemma chainMem_zero {p : Nat} : chainMem 0 p = false := by simp [chainMem]

lemma chainMem_step {j p : Nat} (h : j ≠ 0) :
    chainMem j p = (p == j || chainMem (GetParentIndex j) p) := by
  rw [chainMem]; simp [h]

lemma chainMem_bounds : ∀ j p, chainMem j p = true → 1 ≤ p ∧ p ≤ j := by
  intro j
  induction j using Nat.strong_induction_on with
  | _ j ih =>
    intro p hp
    by_cases h : j = 0
    · subst h; rw [chainMem_zero] at hp; cases hp
    · rw [chainMem_step h] at hp
      rcases Bool.or_eq_true_iff.mp hp with h1 | h1
      · have h1' : p = j := by simpa using h1
        omega
      · have := ih _ (parent_lt h) p h1
        have := parent_lt h
        omega

lemma chainMem_of_parent {j p : Nat} (h : j ≠ 0)
    (hp : chainMem (GetParentIndex j) p = true) : chainMem j p = true := by
  rw [chainMem_step h, hp, Bool.or_true]

lemma chainMem_self {j : Nat} (h : j ≠ 0) : chainMem j j = true := by
  rw [chainMem_step h]; simp

/-! ### Bit accumulation -/

lemma lor_shiftLeft_eq {l a b : Nat} (h : a < 2 ^ l) :
    a ||| (b <<< l) = b * 2 ^ l + a := by
  apply Nat.eq_of_testBit_eq
  intro i
  rw [Nat.testBit_lor, Nat.testBit_shiftLeft,
    show b * 2 ^ l + a = 2 ^ l * b + a by ring,
    Nat.testBit_mul_pow_two_add _ h]
  by_cases hi : i < l
  · simp [hi, Nat.not_le.2 hi]
  · have hfa : a.testBit i = false :=
      Nat.testBit_lt_two_pow
        (lt_of_lt_of_le h (Nat.pow_le_pow_right (by norm_num) (Nat.not_lt.1 hi)))
    simp [hi, Nat.not_lt.1 hi, hfa]

lemma walkLen_lt_of_lt : ∀ k p, p + 1 < 2 ^ k → walkLen p < k := by
  intro k
  induction k with
  | zero => intro p h; simp at h
  | succ k ih =>
    intro p h
    by_cases hp : p = 0
    · subst hp; rw [walkLen_zero]; omega
    · rw [walkLen_parent hp]
      have h2 : GetParentIndex p + 1 < 2 ^ k := by
        have hpow : 2 ^ (k + 1) = 2 * 2 ^ k := by ring
        rw [hpow] at h
        simp only [GetParentIndex]
        omega
      have := ih _ h2
      omega

lemma iterHash_shift (H : Nat → Nat → Nat) (v : Nat) :
    ∀ k, iterHash H (H v v) k = iterHash H v (k + 1) := by
  intro k
  induction k with
  | zero => rfl
  | succ k ih => simp only [iterHash, ih]

/-! ### `NewEmptyTree` characterization -/

lemma setRange_char {v : Nat} :
    ∀ amount start nodes, start + amount ≤ nodes.length →
    ∃ r, setRange v start amount nodes = some r ∧ r.length = nodes.length ∧
      ∀ p, r.getD p 0 =
        if start ≤ p ∧ p < start + amount then v else nodes.getD p 0 := by
  intro amount
  induction amount with
  | zero =>
    intro start nodes _
    refine ⟨nodes, rfl, rfl, fun p => ?_⟩
    rw [if_neg (by omega)]
  | succ a ih =>
    intro start nodes h
    have hs : start < nodes.length := by omega
    obtain ⟨r, hr, hlen, hget⟩ :=
      ih (start + 1) (nodes.set start v) (by simp; omega)
    refine ⟨r, ?_, by simp [hlen], fun p => ?_⟩
    · rw [setRange, listWrite_some hs]
      exact hr
    · rw [hget p]
      split_ifs with h1 h2 h2
      · rfl
      · omega
      · by_cases hp : p = start
        · subst hp; exact getD_set_self hs
        · omega
      · have hp : start ≠ p := by omega
        exact getD_set_ne hp

lemma emptyTreeLevels_char (H : Nat → Nat → Nat) :
    ∀ rem v nodes nodes', 2 ^ rem - 1 ≤ nodes.length →
      emptyTreeLevels H rem (2 ^ rem / 2) (2 ^ rem - 1) v nodes = some nodes' →
      nodes'.length = nodes.length ∧
      (∀ p, 2 ^ rem - 1 ≤ p → nodes'.getD p 0 = nodes.getD p 0) ∧
      (∀ p, p < 2 ^ rem - 1 →
        nodes'.getD p 0 = iterHash H v (rem - 1 - walkLen p)) := by
  intro rem
  induction rem with
  | zero =>
    intro v nodes nodes' _ h
    simp only [emptyTreeLevels, Option.some.injEq] at h
    subst h
    exact ⟨rfl, fun p _ => rfl, fun p hp => absurd hp (by omega)⟩
  | succ rem ih =>
    intro v nodes nodes' hlen h
    have hA : (1:Nat) ≤ 2 ^ rem := Nat.one_le_two_pow
    have hpow : 2 ^ (rem + 1) = 2 * 2 ^ rem := by ring
    have e1 : 2 ^ (rem + 1) / 2 = 2 ^ rem := by omega
    rw [emptyTreeLevels, e1] at h
    have e2 : 2 ^ (rem + 1) - 1 - 2 ^ rem = 2 ^ rem - 1 := by omega
    rw [e2] at h
    obtain ⟨nodes₁, hsr, hlen₁, hget₁⟩ :=
      setRange_char (v := v) (2 ^ rem) (2 ^ rem - 1) nodes (by omega)
    rw [hsr] at h
    dsimp only at h
    have hband : ∀ p, 2 ^ rem - 1 ≤ p → p < 2 ^ (rem + 1) - 1 →
        nodes₁.getD p 0 = v := by
      intro p h1 h2
      rw [hget₁ p, if_pos ⟨h1, by omega⟩]
    have huntouched₁ : ∀ p, 2 ^ (rem + 1) - 1 ≤ p →
        nodes₁.getD p 0 = nodes.getD p 0 := by
      intro p h1
      rw [hget₁ p, if_neg (by omega)]
    by_cases hrem : rem = 0
    · subst hrem
      rw [if_neg (by norm_num)] at h
      simp only [emptyTreeLevels, Option.some.injEq] at h
      subst h
      refine ⟨hlen₁, fun p hp => huntouched₁ p (by simpa using hp),
        fun p hp => ?_⟩
      have hp0 : p = 0 := by omega
      subst hp0
      rw [hband 0 (by omega) (by norm_num), walkLen_zero]
      rfl
    · have h2A : 2 ≤ 2 ^ rem := by
        have := Nat.one_lt_two_pow_iff.mpr hrem
        omega
      rw [if_pos (by omega)] at h
      rcases hw : computeChildrenHash H (2 ^ rem - 1 - 1) nodes₁ with _ | w
      · rw [hw] at h; cases h
      · rw [hw] at h
        dsimp only at h
        -- the two children read are the last two nodes of the just-filled level
        have hc1 : 2 * (2 ^ rem - 1 - 1) + 1 = 2 ^ (rem + 1) - 3 := by omega
        have hc2 : 2 * (2 ^ rem - 1 - 1) + 2 = 2 ^ (rem + 1) - 2 := by omega
        have hr1 : nodes₁[2 * (2 ^ rem - 1 - 1) + 1]? =
            some (nodes₁.getD (2 * (2 ^ rem - 1 - 1) + 1) 0) :=
          getElem?_eq_getD (by rw [hc1, hlen₁]; omega)
        have hr2 : nodes₁[2 * (2 ^ rem - 1 - 1) + 2]? =
            some (nodes₁.getD (2 * (2 ^ rem - 1 - 1) + 2) 0) :=
          getElem?_eq_getD (by rw [hc2, hlen₁]; omega)
        have hv1 : nodes₁.getD (2 * (2 ^ rem - 1 - 1) + 1) 0 = v := by
          rw [hc1]
          exact hband _ (by omega) (by omega)
        have hv2 : nodes₁.getD (2 * (2 ^ rem - 1 - 1) + 2) 0 = v := by
          rw [hc2]
          exact hband _ (by omega) (by omega)
        rw [computeChildrenHash, getChildrenOf, hr1, hr2] at hw
        rw [hv1, hv2] at hw
        simp only [computeNodeHash] at hw
        have hwv : w = H v v := by
          by_cases hb : H v v < uint256Bound
          · rw [if_pos hb] at hw
            exact (Option.some.injEq _ _ ▸ hw).symm
          · rw [if_neg hb] at hw; cases hw
        subst hwv
        obtain ⟨ihlen, ihun, ihpat⟩ :=
          ih (H v v) nodes₁ nodes' (by rw [hlen₁]; omega) h
        refine ⟨by rw [ihlen, hlen₁], fun p hp => ?_, fun p hp => ?_⟩
        · rw [ihun p (by omega), huntouched₁ p hp]
        · by_cases hcase : p < 2 ^ rem - 1
          · rw [ihpat p hcase, iterHash_shift]
            congr 1
            have hwl : walkLen p < rem := walkLen_lt_of_lt rem p (by omega)
            omega
          · rw [ihun p (by omega),
              hband p (by omega) (by omega)]
            have hwl : walkLen p = rem := walkLen_band rem p (by omega) (by omega)
            rw [hwl]
            have : rem + 1 - 1 - rem = 0 := by omega
            rw [this]
            rfl

lemma computeChildrenHash_some {H : Nat → Nat → Nat} {nodes : List Nat}
    {i w : Nat} (h : computeChildrenHash H i nodes = some w) :
    2 * i + 2 < nodes.length ∧
    w = H (nodes.getD (2 * i + 1) 0) (nodes.getD (2 * i + 2) 0) := by
  rw [computeChildrenHash, getChildrenOf] at h
  rcases h1 : nodes[2 * i + 1]? with _ | l
  · rw [h1] at h; cases h
  · rcases h2 : nodes[2 * i + 2]? with _ | r
    · rw [h1, h2] at h; cases h
    · rw [h1, h2] at h
      have hlt : 2 * i + 2 < nodes.length := by
        by_contra hc
        rw [List.getElem?_eq_none (by omega)] at h2
        cases h2
      have hl : l = nodes.getD (2 * i + 1) 0 := by
        rw [getElem?_eq_getD (by omega)] at h1
        exact (Option.some.injEq _ _ ▸ h1).symm
      have hr : r = nodes.getD (2 * i + 2) 0 := by
        rw [getElem?_eq_getD (by omega)] at h2
        exact (Option.some.injEq _ _ ▸ h2).symm
      subst hl; subst hr
      simp only [computeNodeHash] at h
      refine ⟨hlt, ?_⟩
      by_cases hb : H (nodes.getD (2 * i + 1) 0) (nodes.getD (2 * i + 2) 0) <
          uint256Bound
      · rw [if_pos hb] at h
        exact (Option.some.injEq _ _ ▸ h).symm
      · rw [if_neg hb] at h; cases h

lemma computeChildrenHash_some_of (H : Nat → Nat → Nat)
    (hb : ∀ a b, H a b < uint256Bound) {nodes : List Nat} {i : Nat}
    (hlt : 2 * i + 2 < nodes.length) :
    computeChildrenHash H i nodes =
      some (H (nodes.getD (2 * i + 1) 0) (nodes.getD (2 * i + 2) 0)) := by
  rw [computeChildrenHash, getChildrenOf,
    getElem?_eq_getD (show 2 * i + 1 < nodes.length by omega),
    getElem?_eq_getD hlt]
  simp only [computeNodeHash]
  rw [if_pos (hb _ _)]

lemma setLeafAncestors_char (H : Nat → Nat → Nat) :
    ∀ j nodes nodes', setLeafAncestors H j nodes = some nodes' →
      nodes'.length = nodes.length ∧
      (∀ p, chainMem j p = false → nodes'.getD p 0 = nodes.getD p 0) ∧
      (∀ p, chainMem j p = true →
        nodes'.getD p 0 =
          H (nodes'.getD (2 * p + 1) 0) (nodes'.getD (2 * p + 2) 0)) := by
  intro j
  induction j using Nat.strong_induction_on with
  | _ j ih =>
    intro nodes nodes' h
    by_cases hj : j = 0
    · subst hj
      rw [setLeafAncestors] at h
      simp only [if_true, reduceIte, Option.some.injEq] at h
      subst h
      exact ⟨rfl, fun p _ => rfl,
        fun p hp => by rw [chainMem_zero] at hp; cases hp⟩
    · rw [setLeafAncestors, if_neg hj] at h
      rcases hcc : computeChildrenHash H j nodes with _ | v
      · rw [hcc] at h; cases h
      · rw [hcc] at h
        dsimp only at h
        obtain ⟨hcb, hcv⟩ := computeChildrenHash_some hcc
        have hjlen : j < nodes.length := by omega
        rw [listWrite_some hjlen] at h
        dsimp only at h
        obtain ⟨ihlen, ihframe, ihpost⟩ := ih _ (parent_lt hj) _ _ h
        have hlen' : nodes'.length = nodes.length := by
          rw [ihlen]; simp
        have hframe : ∀ p, chainMem j p = false →
            nodes'.getD p 0 = nodes.getD p 0 := by
          intro p hp
          rw [chainMem_step hj] at hp
          have hp1 : (p == j) = false := by
            cases hpe : p == j
            · rfl
            · rw [hpe] at hp; simp at hp
          have hp2 : chainMem (GetParentIndex j) p = false := by
            cases hpe : chainMem (GetParentIndex j) p
            · rfl
            · rw [hpe] at hp; simp at hp
          have hpj : p ≠ j := by simpa using hp1
          rw [ihframe p hp2, getD_set_ne (fun he => hpj he.symm)]
        have hnotchain : ∀ q, j ≤ q → chainMem (GetParentIndex j) q = false := by
          intro q hq
          cases hc : chainMem (GetParentIndex j) q
          · rfl
          · have := chainMem_bounds _ _ hc
            have := parent_lt hj
            omega
        refine ⟨hlen', hframe, fun p hp => ?_⟩
        rw [chainMem_step hj] at hp
        by_cases hpj : p = j
        · subst hpj
          have hvj : nodes'.getD p 0 = v := by
            rw [ihframe p (hnotchain p le_rfl), getD_set_self hjlen]
          have hc1 : nodes'.getD (2 * p + 1) 0 = nodes.getD (2 * p + 1) 0 := by
            rw [ihframe _ (hnotchain _ (by omega)),
              getD_set_ne (show p ≠ 2 * p + 1 by omega)]
          have hc2 : nodes'.getD (2 * p + 2) 0 = nodes.getD (2 * p + 2) 0 := by
            rw [ihframe _ (hnotchain _ (by omega)),
              getD_set_ne (show p ≠ 2 * p + 2 by omega)]
          rw [hvj, hc1, hc2, hcv]
        · have hp2 : chainMem (GetParentIndex j) p = true := by
            rcases Bool.or_eq_true_iff.mp hp with h1 | h1
            · exact absurd (by simpa using h1) hpj
            · exact h1
          exact ihpost p hp2

lemma setLeafAncestors_some (H : Nat → Nat → Nat)
    (hb : ∀ a b, H a b < uint256Bound) :
    ∀ j nodes, 2 * j + 2 < nodes.length →
      ∃ nodes', setLeafAncestors H j nodes = some nodes' := by
  intro j
  induction j using Nat.strong_induction_on with
  | _ j ih =>
    intro nodes hlt
    by_cases hj : j = 0
    · subst hj
      exact ⟨nodes, by rw [setLeafAncestors]; simp⟩
    · have hjlen : j < nodes.length := by omega
      obtain ⟨nodes', h'⟩ := ih _ (parent_lt hj) (nodes.set j
          (H (nodes.getD (2 * j + 1) 0) (nodes.getD (2 * j + 2) 0)))
        (by
          simp only [List.length_set, GetParentIndex]
          omega)
      refine ⟨nodes', ?_⟩
      rw [setLeafAncestors, if_neg hj, computeChildrenHash_some_of H hb hlt]
      dsimp only
      rw [listWrite_some hjlen]
      exact h'

/-! ### Sibling and parent-child arithmetic -/

lemma sibling_odd {j : Nat} (h : j % 2 = 1) : GetSiblingIndex j = j + 1 := by
  simp [GetSiblingIndex, IsRightChild, h]

lemma sibling_even {j : Nat} (h : j % 2 = 0) : GetSiblingIndex j = j - 1 := by
  simp [GetSiblingIndex, IsRightChild, h]

lemma parent_children_odd {j : Nat} (h : j % 2 = 1) :
    2 * GetParentIndex j + 1 = j ∧ 2 * GetParentIndex j + 2 = j + 1 := by
  simp only [GetParentIndex]; omega

lemma parent_children_even {j : Nat} (h1 : j % 2 = 0) (h2 : j ≠ 0) :
    2 * GetParentIndex j + 1 = j - 1 ∧ 2 * GetParentIndex j + 2 = j := by
  simp only [GetParentIndex]; omega

/-! ### `SetLeaf` characterization -/

lemma setLeaf_char {H : Nat → Nat → Nat} {t : Tree} {i x : Nat} {t' : Tree}
    (h : t.SetLeaf H i x = some t') :
    i < t.GetLeavesAmount ∧
    3 ≤ t.Nodes.length ∧
    1 ≤ leafPos t i ∧
    leafPos t i < t.Nodes.length ∧
    t'.Nodes.length = t.Nodes.length ∧
    (∀ p, chainMem (leafPos t i) p = false → p ≠ 0 →
      t'.Nodes.getD p 0 = t.Nodes.getD p 0) ∧
    t'.Nodes.getD (leafPos t i) 0 = x ∧
    (∀ p, chainMem (GetParentIndex (leafPos t i)) p = true ∨ p = 0 →
      t'.Nodes.getD p 0 =
        H (t'.Nodes.getD (2 * p + 1) 0) (t'.Nodes.getD (2 * p + 2) 0)) := by
  rw [Tree.SetLeaf] at h
  by_cases hi : i ≥ t.GetLeavesAmount
  · rw [if_pos hi] at h; cases h
  · rw [if_neg hi] at h
    dsimp only at h
    rcases hw0 : listWrite t.Nodes (t.Nodes.length - t.GetLeavesAmount + i) x
      with _ | nodes₀
    · rw [hw0] at h; cases h
    · rw [hw0] at h
      dsimp only at h
      have hj0len : t.Nodes.length - t.GetLeavesAmount + i < t.Nodes.length := by
        by_contra hc
        rw [listWrite, if_neg hc] at hw0
        cases hw0
      have hn₀ : nodes₀ = t.Nodes.set (t.Nodes.length - t.GetLeavesAmount + i) x := by
        rw [listWrite_some hj0len] at hw0
        exact (Option.some.injEq _ _ ▸ hw0).symm
      rcases hsla : setLeafAncestors H
          (GetParentIndex (t.Nodes.length - t.GetLeavesAmount + i)) nodes₀
        with _ | nodes₁
      · rw [hsla] at h; cases h
      · rw [hsla] at h
        dsimp only at h
        rcases hcc : computeChildrenHash H 0 nodes₁ with _ | r
        · rw [hcc] at h; cases h
        · rw [hcc] at h
          dsimp only at h
          obtain ⟨hccb, hccv⟩ := computeChildrenHash_some hcc
          rcases hw2 : listWrite nodes₁ 0 r with _ | nodes₂
          · rw [hw2] at h; cases h
          · rw [hw2] at h
            dsimp only at h
            have ht' : t' = ⟨nodes₂⟩ := by
              simpa using h.symm
            subst ht'
            have h0len : (0:Nat) < nodes₁.length := by omega
            have hn₂ : nodes₂ = nodes₁.set 0 r := by
              rw [listWrite_some h0len] at hw2
              exact (Option.some.injEq _ _ ▸ hw2).symm
            obtain ⟨slen, sframe, spost⟩ := setLeafAncestors_char H _ _ _ hsla
            -- abbreviations
            set j₀ := t.Nodes.length - t.GetLeavesAmount + i with hj₀
            have hlen₀ : nodes₀.length = t.Nodes.length := by
              rw [hn₀]; simp
            have hlen₁ : nodes₁.length = t.Nodes.length := by
              rw [slen, hlen₀]
            have hlen3 : 3 ≤ t.Nodes.length := by
              rw [hlen₁] at hccb
              omega
            have hleaves : t.GetLeavesAmount = (t.Nodes.length + 1) / 2 := rfl
            have hj₀1 : 1 ≤ j₀ := by
              rw [hj₀, hleaves]
              omega
            have hchainlt : ∀ q, chainMem (GetParentIndex j₀) q = true → q < j₀ := by
              intro q hq
              have h1 := chainMem_bounds _ _ hq
              have h2 := parent_lt (show j₀ ≠ 0 by omega)
              omega
            have hframe : ∀ p, chainMem j₀ p = false → p ≠ 0 →
                nodes₂.getD p 0 = t.Nodes.getD p 0 := by
              intro p hp hp0
              rw [chainMem_step (show j₀ ≠ 0 by omega)] at hp
              have hp1 : p ≠ j₀ := by
                intro he
                rw [he] at hp
                simp at hp
              have hp2 : chainMem (GetParentIndex j₀) p = false := by
                cases hpe : chainMem (GetParentIndex j₀) p
                · rfl
                · rw [hpe] at hp; simp at hp
              rw [hn₂, getD_set_ne (fun he => hp0 he.symm), sframe p hp2, hn₀,
                getD_set_ne (fun he => hp1 he.symm)]
            have hleaf : nodes₂.getD j₀ 0 = x := by
              have hnc : chainMem (GetParentIndex j₀) j₀ = false := by
                cases hpe : chainMem (GetParentIndex j₀) j₀
                · rfl
                · exact absurd (hchainlt _ hpe) (by omega)
              rw [hn₂, getD_set_ne (show (0:Nat) ≠ j₀ by omega), sframe _ hnc,
                hn₀, getD_set_self hj0len]
            refine ⟨by omega, hlen3, hj₀1, hj0len, by rw [hn₂]; simp [hlen₁],
              hframe, hleaf, fun p hp => ?_⟩
            rcases hp with hp | hp
            · -- a strictly positive ancestor, recomputed by the loop
              have hp1 : 1 ≤ p := (chainMem_bounds _ _ hp).1
              have heq := spost p hp
              have e0 : nodes₂.getD p 0 = nodes₁.getD p 0 := by
                rw [hn₂, getD_set_ne (by omega)]
              have e1 : nodes₂.getD (2 * p + 1) 0 = nodes₁.getD (2 * p + 1) 0 := by
                rw [hn₂, getD_set_ne (by omega)]
              have e2 : nodes₂.getD (2 * p + 2) 0 = nodes₁.getD (2 * p + 2) 0 := by
                rw [hn₂, getD_set_ne (by omega)]
              rw [e0, e1, e2, heq]
            · -- the root, recomputed by the final write
              subst hp
              have e0 : nodes₂.getD 0 0 = r := by
                rw [hn₂, getD_set_self h0len]
              have e1 : nodes₂.getD 1 0 = nodes₁.getD 1 0 := by
                rw [hn₂, getD_set_ne (by omega)]
              have e2 : nodes₂.getD 2 0 = nodes₁.getD 2 0 := by
                rw [hn₂, getD_set_ne (by omega)]
              rw [e0, e1, e2, hccv]

lemma leaves_amount_pow {t : Tree} {d : Nat} (hd : 1 ≤ d)
    (hlen : t.Nodes.length = 2 ^ d - 1) :
    t.GetLeavesAmount = 2 ^ (d - 1) := by
  have hpow : 2 ^ d = 2 * 2 ^ (d - 1) := by
    rw [← pow_succ']
    congr 1
    omega
  have hA : (1:Nat) ≤ 2 ^ (d - 1) := Nat.one_le_two_pow
  rw [Tree.GetLeavesAmount, hlen]
  omega

lemma leafPos_eq {t : Tree} {d i : Nat} (hd : 1 ≤ d)
    (hlen : t.Nodes.length = 2 ^ d - 1) :
    leafPos t i = 2 ^ (d - 1) - 1 + i := by
  have hpow : 2 ^ d = 2 * 2 ^ (d - 1) := by
    rw [← pow_succ']
    congr 1
    omega
  have hA : (1:Nat) ≤ 2 ^ (d - 1) := Nat.one_le_two_pow
  rw [leafPos, leaves_amount_pow hd hlen, hlen]
  omega

lemma setLeaf_some {H : Nat → Nat → Nat} (hb : ∀ a b, H a b < uint256Bound)
    {t : Tree} {d i : Nat} (hlen : t.Nodes.length = 2 ^ d - 1) (hd : 2 ≤ d)
    (hi : i < 2 ^ (d - 1)) (x : Nat) :
    ∃ t', t.SetLeaf H i x = some t' := by
  have hpow : 2 ^ d = 2 * 2 ^ (d - 1) := by
    rw [← pow_succ']
    congr 1
    omega
  have h2A : 2 ≤ 2 ^ (d - 1) := by
    have := Nat.one_lt_two_pow_iff.mpr (show d - 1 ≠ 0 by omega)
    omega
  have hla : t.GetLeavesAmount = 2 ^ (d - 1) := leaves_amount_pow (by omega) hlen
  have hj₀ : t.Nodes.length - t.GetLeavesAmount + i = 2 ^ (d - 1) - 1 + i := by
    rw [hla, hlen]; omega
  have hj0len : t.Nodes.length - t.GetLeavesAmount + i < t.Nodes.length := by
    rw [hj₀, hlen]; omega
  rw [Tree.SetLeaf, if_neg (by omega)]
  dsimp only
  rw [listWrite_some hj0len]
  dsimp only
  obtain ⟨nodes₁, h₁⟩ := setLeafAncestors_some H hb
    (GetParentIndex (t.Nodes.length - t.GetLeavesAmount + i))
    (t.Nodes.set (t.Nodes.length - t.GetLeavesAmount + i) x)
    (by
      simp only [List.length_set, GetParentIndex, hj₀, hlen]
      omega)
  rw [h₁]
  dsimp only
  have hlen₁ : nodes₁.length = t.Nodes.length :=
    (setLeafAncestors_char H _ _ _ h₁).1.trans (by simp)
  rw [computeChildrenHash_some_of H hb (by rw [hlen₁, hlen]; omega)]
  dsimp only
  rw [listWrite_some (by rw [hlen₁, hlen]; omega)]
  exact ⟨_, rfl⟩

/-! ### `chainOK` and root reconstruction -/

lemma chainOK_zero {H : Nat → Nat → Nat} {nodes : List Nat} :
    chainOK H nodes 0 := by
  rw [chainOK]; simp

lemma chainOK_step {H : Nat → Nat → Nat} {nodes : List Nat} {j : Nat}
    (hj : j ≠ 0) :
    chainOK H nodes j ↔
      (nodes.getD (GetParentIndex j) 0 =
        H (nodes.getD (2 * GetParentIndex j + 1) 0)
          (nodes.getD (2 * GetParentIndex j + 2) 0)) ∧
      chainOK H nodes (GetParentIndex j) := by
  rw [chainOK]; simp [hj]

lemma chainOK_of_eqs {H : Nat → Nat → Nat} {nodes : List Nat}
    (Eq0 : nodes.getD 0 0 = H (nodes.getD 1 0) (nodes.getD 2 0)) :
    ∀ j, (∀ p, chainMem (GetParentIndex j) p = true →
        nodes.getD p 0 =
          H (nodes.getD (2 * p + 1) 0) (nodes.getD (2 * p + 2) 0)) →
      chainOK H nodes j := by
  intro j
  induction j using Nat.strong_induction_on with
  | _ j ih =>
    intro heqs
    by_cases hj : j = 0
    · subst hj; exact chainOK_zero
    · rw [chainOK_step hj]
      constructor
      · by_cases hpj : GetParentIndex j = 0
        · rw [hpj]
          simpa using Eq0
        · exact heqs _ (chainMem_self hpj)
      · refine ih _ (parent_lt hj) (fun p hp => ?_)
        by_cases hpj : GetParentIndex j = 0
        · rw [hpj] at hp
          rw [show GetParentIndex 0 = 0 from rfl, chainMem_zero] at hp
          cases hp
        · exact heqs p (chainMem_of_parent hpj hp)

lemma reconstructRoot_eq (H : Nat → Nat → Nat) (nodes : List Nat) :
    ∀ j, chainOK H nodes j →
      reconstructRoot H (nodes.getD j 0) (pathSiblings nodes j)
        (pathIndices j) = nodes.getD 0 0 := by
  intro j
  induction j using Nat.strong_induction_on with
  | _ j ih =>
    intro hok
    by_cases hj : j = 0
    · subst hj
      rw [pathSiblings_nil]
      rfl
    · obtain ⟨heq, hok'⟩ := (chainOK_step hj).mp hok
      rw [pathSiblings_cons hj, pathIndices_step hj, reconstructRoot]
      have hidx2 : (j % 2 + 2 * pathIndices (GetParentIndex j)) % 2 = j % 2 := by
        omega
      have hidxd : (j % 2 + 2 * pathIndices (GetParentIndex j)) / 2 =
          pathIndices (GetParentIndex j) := by
        omega
      rw [hidx2, hidxd]
      have hstep : (if j % 2 = 1 then
          H (nodes.getD j 0) (nodes.getD (GetSiblingIndex j) 0)
        else H (nodes.getD (GetSiblingIndex j) 0) (nodes.getD j 0)) =
          nodes.getD (GetParentIndex j) 0 := by
        by_cases hpar : j % 2 = 1
        · rw [if_pos hpar, sibling_odd hpar, heq,
            (parent_children_odd hpar).1, (parent_children_odd hpar).2]
        · have hpar0 : j % 2 = 0 := by omega
          rw [if_neg hpar, sibling_even hpar0, heq,
            (parent_children_even hpar0 hj).1, (parent_children_even hpar0 hj).2]
      rw [hstep]
      exact ih _ (parent_lt hj) hok'

/-! ### `GetProof` characterization -/

lemma sibling_lt {len a : Nat} (hodd : len % 2 = 1) (_ha : a ≠ 0)
    (halt : a < len) : GetSiblingIndex a < len := by
  by_cases h : a % 2 = 0
  · rw [sibling_even h]; omega
  · rw [sibling_odd (by omega)]; omega

lemma getProofLoop_char {nodes : List Nat} (hodd : nodes.length % 2 = 1) :
    ∀ j level path idx, j < nodes.length → idx < 2 ^ level →
      level + walkLen j ≤ path.length →
      ∃ path', getProofLoop nodes j level path idx =
          some (path', idx + pathIndices j * 2 ^ level) ∧
        path'.length = path.length ∧
        (∀ k, path'.getD k 0 =
          if level ≤ k ∧ k < level + walkLen j then
            nodes.getD (GetSiblingIndex (pathNode j (k - level))) 0
          else path.getD k 0) := by
  intro j
  induction j using Nat.strong_induction_on with
  | _ j ih =>
    intro level path idx hj hidx hlenp
    by_cases hj0 : j = 0
    · subst hj0
      refine ⟨path, ?_, rfl, fun k => ?_⟩
      · rw [getProofLoop]
        simp [pathIndices_zero]
      · rw [if_neg (by rw [walkLen_zero]; omega)]
    · have hwl : walkLen j = walkLen (GetParentIndex j) + 1 := walkLen_parent hj0
      have hsib : GetSiblingIndex j < nodes.length := sibling_lt hodd hj0 hj
      have hlev : level < path.length := by omega
      rw [getProofLoop, if_neg hj0]
      dsimp only
      rw [getElem?_eq_getD hsib]
      dsimp only
      rw [listWrite_some hlev]
      dsimp only
      have hidx' : idx ||| ((j % 2) <<< level) = (j % 2) * 2 ^ level + idx :=
        lor_shiftLeft_eq hidx
      rw [hidx']
      have hpow : (2:Nat) ^ (level + 1) = 2 * 2 ^ level := by ring
      obtain ⟨path', hrec, hlen', hget'⟩ :=
        ih (GetParentIndex j) (parent_lt hj0) (level + 1)
          (path.set level (nodes.getD (GetSiblingIndex j) 0))
          ((j % 2) * 2 ^ level + idx)
          (lt_trans (parent_lt hj0) hj)
          (by
            have h2 : j % 2 ≤ 1 := by omega
            have hle : (j % 2) * 2 ^ level ≤ 1 * 2 ^ level :=
              Nat.mul_le_mul_right _ h2
            rw [hpow]
            omega)
          (by simp only [List.length_set]; omega)
      have hindeq : (j % 2) * 2 ^ level + idx +
          pathIndices (GetParentIndex j) * 2 ^ (level + 1) =
          idx + pathIndices j * 2 ^ level := by
        rw [pathIndices_step hj0, hpow]
        ring
      refine ⟨path', ?_, by rw [hlen']; simp, fun k => ?_⟩
      · rw [hrec, hindeq]
      · rw [hget' k]
        by_cases hk1 : level + 1 ≤ k ∧ k < level + 1 + walkLen (GetParentIndex j)
        · rw [if_pos hk1, if_pos (by omega)]
          have hkl : k - level = (k - (level + 1)) + 1 := by omega
          rw [hkl, pathNode_succ]
        · rw [if_neg hk1]
          by_cases hk2 : k = level
          · subst hk2
            rw [getD_set_self hlev, if_pos (by omega), Nat.sub_self,
              pathNode_zero]
          · rw [getD_set_ne (fun he => hk2 he.symm), if_neg (by omega)]

lemma log2_two_pow : ∀ d : Nat, Nat.log2 (2 ^ d) = d := by
  intro d
  induction d with
  | zero => simp [Nat.log2]
  | succ d ih =>
    rw [Nat.log2]
    have h2 : 2 ≤ 2 ^ (d + 1) := by
      calc (2:Nat) = 2 ^ 1 := rfl
      _ ≤ 2 ^ (d + 1) := Nat.pow_le_pow_right (by norm_num) (by omega)
    rw [if_pos h2]
    have : 2 ^ (d + 1) / 2 = 2 ^ d := by
      have : (2:Nat) ^ (d + 1) = 2 * 2 ^ d := by ring
      omega
    rw [this, ih]

lemma getProof_char {t : Tree} {d i : Nat} (hd : 1 ≤ d)
    (hlen : t.Nodes.length = 2 ^ d - 1) (hi : i < 2 ^ (d - 1)) :
    ∃ p, t.GetProof i = some p ∧
      p.Indices = pathIndices (leafPos t i) ∧
      p.Path.length = d ∧
      (∀ k, k < d - 1 → p.Path.getD k 0 =
        t.Nodes.getD (GetSiblingIndex (pathNode (leafPos t i) k)) 0) ∧
      p.Path.getD (d - 1) 0 = t.Nodes.getD 0 0 := by
  have hpow : 2 ^ d = 2 * 2 ^ (d - 1) := by
    rw [← pow_succ']
    congr 1
    omega
  have hA : (1:Nat) ≤ 2 ^ (d - 1) := Nat.one_le_two_pow
  have hla : t.GetLeavesAmount = 2 ^ (d - 1) := leaves_amount_pow hd hlen
  have hj₀ : leafPos t i = 2 ^ (d - 1) - 1 + i := leafPos_eq hd hlen
  have hodd : t.Nodes.length % 2 = 1 := by rw [hlen]; omega
  have hj0lt : leafPos t i < t.Nodes.length := by rw [hj₀, hlen]; omega
  have hwl : walkLen (leafPos t i) = d - 1 := by
    rw [hj₀]
    refine walkLen_band (d - 1) _ (by omega) ?_
    have : 2 ^ (d - 1 + 1) = 2 ^ d := by congr 1; omega
    rw [this]
    omega
  have hlog : Nat.log2 (t.Nodes.length + 1) = d := by
    rw [hlen, show 2 ^ d - 1 + 1 = 2 ^ d by omega, log2_two_pow]
  rw [Tree.GetProof, if_neg (by omega)]
  dsimp only
  rw [hlog]
  obtain ⟨path', hloop, hlen', hget'⟩ :=
    getProofLoop_char hodd (leafPos t i) 0 (List.replicate d 0) 0
      hj0lt (by norm_num) (by rw [hwl, List.length_replicate]; omega)
  rw [show t.Nodes.length - t.GetLeavesAmount + i = leafPos t i from rfl, hloop]
  dsimp only
  rw [show t.Root = some (t.Nodes.getD 0 0) from
    getElem?_eq_getD (by omega)]
  dsimp only
  have hdlen : d - 1 < path'.length := by
    rw [hlen', List.length_replicate]
    omega
  rw [listWrite_some hdlen]
  dsimp only
  refine ⟨_, rfl, by simp [pathIndices_lt], by simp [hlen'], fun k hk => ?_, ?_⟩
  · rw [getD_set_ne (show d - 1 ≠ k by omega), hget' k,
      if_pos (by rw [hwl]; omega), Nat.sub_zero]
  · rw [getD_set_self hdlen]

lemma newEmptyTree_char {H : Nat → Nat → Nat} {d v : Nat} {t : Tree}
    (h : NewEmptyTree H d v = some t) :
    1 ≤ d ∧ t.Nodes.length = 2 ^ d - 1 ∧
    ∀ p, p < 2 ^ d - 1 → t.Nodes.getD p 0 = iterHash H v (d - 1 - walkLen p) := by
  rw [NewEmptyTree] at h
  by_cases hd : d < 1
  · rw [if_pos hd] at h; cases h
  · rw [if_neg hd] at h
    have hpow : 2 ^ d = 2 * 2 ^ (d - 1) := by
      rw [← pow_succ']
      congr 1
      omega
    have e1 : 2 ^ (d - 1) = 2 ^ d / 2 := by omega
    rw [e1] at h
    rcases he : emptyTreeLevels H d (2 ^ d / 2) (2 ^ d - 1) v
        (List.replicate (2 ^ d - 1) 0) with _ | nodes
    · rw [he] at h; cases h
    · rw [he] at h
      obtain ⟨hlen, _, hpat⟩ :=
        emptyTreeLevels_char H d v (List.replicate (2 ^ d - 1) 0) nodes
          (by simp) he
      have ht : t = ⟨nodes⟩ := by
        simpa using h.symm
      subst ht
      exact ⟨by omega, by simpa using hlen, hpat⟩

end Merkle

namespace Merkle

/-! ### Claim theorems for the Merkle tree engine -/

lemma walkLen_leafPos {t : Tree} {d i : Nat} (hd : 1 ≤ d)
    (hlen : t.Nodes.length = 2 ^ d - 1) (hi : i < 2 ^ (d - 1)) :
    walkLen (leafPos t i) = d - 1 := by
  have hpow : 2 ^ d = 2 * 2 ^ (d - 1) := by
    rw [← pow_succ']
    congr 1
    omega
  have hA : (1:Nat) ≤ 2 ^ (d - 1) := Nat.one_le_two_pow
  rw [leafPos_eq hd hlen]
  refine walkLen_band (d - 1) _ (by omega) ?_
  have he : 2 ^ (d - 1 + 1) = 2 ^ d := by congr 1; omega
  rw [he]
  omega

/-- C4: for every tree of depth `d ≥ 1` and every valid leaf index `i`,
`GetProof i` returns a path of exactly `d` entries whose first `d − 1`
entries are the sibling nodes along the leaf-to-root path (leaf level
first) and whose final entry is the tree's root value itself, not a
sibling. -/
theorem getProof_path_layout {t : Tree} {d i : Nat} (hd : 1 ≤ d)
    (hlen : t.Nodes.length = 2 ^ d - 1) (hi : i < 2 ^ (d - 1)) :
    ∃ p, t.GetProof i = some p ∧ p.Path.length = d ∧
      (∀ k, k < d - 1 → p.Path.getD k 0 =
        t.Nodes.getD (GetSiblingIndex (pathNode (leafPos t i) k)) 0) ∧
      t.Root = some (p.Path.getD (d - 1) 0) := by
  obtain ⟨p, hp, _, hplen, hsib, hroot⟩ := getProof_char hd hlen hi
  have h1 : (1:Nat) ≤ 2 ^ d - 1 := by
    have := Nat.one_lt_two_pow_iff.mpr (show d ≠ 0 by omega)
    omega
  refine ⟨p, hp, hplen, hsib, ?_⟩
  rw [hroot]
  exact getElem?_eq_getD (by omega)

/-- Witness for C4 at the depth-2 tree `[1, 0, 0]` and leaf 0. -/
theorem getProof_path_layout_witness :
    1 ≤ 2 ∧ (Tree.mk [1, 0, 0]).Nodes.length = 2 ^ 2 - 1 ∧ 0 < 2 ^ (2 - 1) ∧
    (∃ p, (Tree.mk [1, 0, 0]).GetProof 0 = some p ∧ p.Path.length = 2 ∧
      (∀ k, k < 2 - 1 → p.Path.getD k 0 =
        (Tree.mk [1, 0, 0]).Nodes.getD
          (GetSiblingIndex (pathNode (leafPos (Tree.mk [1, 0, 0]) 0) k)) 0) ∧
      (Tree.mk [1, 0, 0]).Root = some (p.Path.getD (2 - 1) 0)) :=
  ⟨by norm_num, by norm_num, by norm_num,
    getProof_path_layout (by norm_num) (by norm_num) (by norm_num)⟩

/-- C1 (amended): for every tree of depth `d ≥ 1` and valid leaf index `i`,
bit `k` of the `Indices` bitmask returned by `GetProof i` is set if and only
if the array index of the node on the leaf-to-root path at level `k` is
odd.  (The claim as frozen says "even"; the code sets `Indices |= j%2 << k`,
so the bit records an odd current index — equivalently, a sibling stored at
an even index.) -/
theorem getProof_indices_bit_odd {t : Tree} {d i : Nat} (hd : 1 ≤ d)
    (hlen : t.Nodes.length = 2 ^ d - 1) (hi : i < 2 ^ (d - 1)) :
    ∃ p, t.GetProof i = some p ∧
      ∀ k, k < d - 1 →
        (p.Indices.testBit k = true ↔ pathNode (leafPos t i) k % 2 = 1) := by
  obtain ⟨p, hp, hind, _, _⟩ := getProof_char hd hlen hi
  refine ⟨p, hp, fun k hk => ?_⟩
  rw [hind, pathIndices_testBit k _ (by rw [walkLen_leafPos hd hlen hi]; omega)]
  simp

/-- Witness for C1 (amended) at the depth-2 tree `[1, 0, 0]` and leaf 0. -/
theorem getProof_indices_bit_odd_witness :
    1 ≤ 2 ∧ (Tree.mk [1, 0, 0]).Nodes.length = 2 ^ 2 - 1 ∧ 0 < 2 ^ (2 - 1) ∧
    (∃ p, (Tree.mk [1, 0, 0]).GetProof 0 = some p ∧
      ∀ k, k < 2 - 1 →
        (p.Indices.testBit k = true ↔
          pathNode (leafPos (Tree.mk [1, 0, 0]) 0) k % 2 = 1)) :=
  ⟨by norm_num, by norm_num, by norm_num,
    getProof_indices_bit_odd (by norm_num) (by norm_num) (by norm_num)⟩

/-- C1 counterexample: in the depth-2 tree `[1, 0, 0]`, `GetProof 0` sets
bit 0 of `Indices` although the node on the path at level 0 has the odd
array index 1; "bit set iff the index is even" is false at this input. -/
theorem getProof_indices_bit_even_cex :
    (Tree.mk [1, 0, 0]).GetProof 0 = some ⟨[0, 1], 1⟩ ∧
    pathNode (leafPos (Tree.mk [1, 0, 0]) 0) 0 = 1 ∧
    Nat.testBit 1 0 = true ∧
    ¬ (Nat.testBit 1 0 = true ↔
        pathNode (leafPos (Tree.mk [1, 0, 0]) 0) 0 % 2 = 0) := by
  refine ⟨?_, by decide, by decide, by decide⟩
  simp [Tree.GetProof, Tree.GetLeavesAmount, Tree.Root, getProofLoop,
    GetParentIndex, GetSiblingIndex, IsRightChild, listWrite, Nat.log2]

/-- C5 (amended): for all `d ≥ 1` and every leaf value `v`,
`NewEmptyTree d v` yields a tree with exactly `2^d − 1` nodes and `2^(d−1)`
leaves, and its root is the result of hashing `v` with itself pairwise
level by level — `d − 1` hash applications, not `d` as the claim counts. -/
theorem newEmptyTree_counts_and_root {H : Nat → Nat → Nat} {d v : Nat}
    {t : Tree} (h : NewEmptyTree H d v = some t) :
    t.Nodes.length = 2 ^ d - 1 ∧ t.GetLeavesAmount = 2 ^ (d - 1) ∧
    t.Root = some (iterHash H v (d - 1)) := by
  obtain ⟨hd, hlen, hpat⟩ := newEmptyTree_char h
  have h1 : (1:Nat) ≤ 2 ^ d - 1 := by
    have := Nat.one_lt_two_pow_iff.mpr (show d ≠ 0 by omega)
    omega
  refine ⟨hlen, leaves_amount_pow hd hlen, ?_⟩
  rw [Tree.Root, getElem?_eq_getD (by omega), hpat 0 (by omega), walkLen_zero,
    Nat.sub_zero]

/-- Witness for C5 (amended): `NewEmptyTree 2 0` with the test hash. -/
theorem newEmptyTree_counts_and_root_witness :
    NewEmptyTree testHash 2 0 = some ⟨[1, 0, 0]⟩ ∧
    ((Tree.mk [1, 0, 0]).Nodes.length = 2 ^ 2 - 1 ∧
      (Tree.mk [1, 0, 0]).GetLeavesAmount = 2 ^ (2 - 1) ∧
      (Tree.mk [1, 0, 0]).Root = some (iterHash testHash 0 (2 - 1))) :=
  ⟨by decide, newEmptyTree_counts_and_root (by decide)⟩

/-- C5 counterexample: for `d = 1` the root of `NewEmptyTree 1 7` is the
leaf value `7` itself (zero hash applications), not the claimed `d`-fold
self-hash `H 7 7 = 22`. -/
theorem newEmptyTree_root_d_hashes_cex :
    NewEmptyTree testHash 1 7 = some ⟨[7]⟩ ∧
    (Tree.mk [7]).Root = some 7 ∧
    iterHash testHash 7 1 = 22 ∧
    (Tree.mk [7]).Root ≠ some (iterHash testHash 7 1) := by decide

end Merkle

namespace Merkle

lemma testHash_lt : ∀ a b, testHash a b < uint256Bound := by
  intro a b
  have : 0 < uint256Bound := by norm_num [uint256Bound]
  exact Nat.mod_lt _ this

/-- C3 (amended): for every depth `d ≥ 2`, every tree built by
`NewEmptyTree d v`, every in-range leaf index and every value, `SetLeaf`
performs only in-bounds node-array accesses and returns without error
(in this embedding every child/parent access is bounds-checked, so a
`some` result is exactly an in-bounds, error-free run).  For `d = 1` the
claim fails: see the counterexample. -/
theorem setLeaf_in_bounds {H : Nat → Nat → Nat}
    (hb : ∀ a b, H a b < uint256Bound) {d v i : Nat} {t : Tree}
    (hnew : NewEmptyTree H d v = some t) (hd : 2 ≤ d) (hi : i < 2 ^ (d - 1))
    (x : Nat) : ∃ t', t.SetLeaf H i x = some t' := by
  obtain ⟨_, hlen, _⟩ := newEmptyTree_char hnew
  exact setLeaf_some hb hlen hd hi x

/-- Witness for C3 (amended) at depth 2. -/
theorem setLeaf_in_bounds_witness :
    (∀ a b, testHash a b < uint256Bound) ∧
    NewEmptyTree testHash 2 0 = some ⟨[1, 0, 0]⟩ ∧ 2 ≤ 2 ∧ 0 < 2 ^ (2 - 1) ∧
    (∃ t', (Tree.mk [1, 0, 0]).SetLeaf testHash 0 5 = some t') :=
  ⟨testHash_lt, by decide, le_refl 2, by norm_num,
    @setLeaf_in_bounds testHash testHash_lt 2 0 0 ⟨[1, 0, 0]⟩ (by decide)
      (le_refl 2) (by norm_num) 5⟩

/-- C3 counterexample: on the depth-1 tree built by `NewEmptyTree 1 0` the
final root recomputation of `SetLeaf` reads the child slots 1 and 2 of the
one-element node array, which is out of bounds, so `SetLeaf 0 5` fails
although `d = 1 ≥ 1` and the index 0 is valid. -/
theorem setLeaf_depth_one_out_of_bounds_cex :
    NewEmptyTree testHash 1 0 = some ⟨[0]⟩ ∧ 0 < 2 ^ (1 - 1) ∧
    (Tree.mk [0]).SetLeaf testHash 0 5 = none := by
  refine ⟨by decide, by decide, ?_⟩
  simp [Tree.SetLeaf, Tree.GetLeavesAmount, setLeafAncestors, listWrite,
    GetParentIndex, computeChildrenHash, getChildrenOf]

lemma walkLen_child_left (p : Nat) : walkLen (2 * p + 1) = walkLen p + 1 := by
  have hpar : GetParentIndex (2 * p + 1) = p := by
    simp only [GetParentIndex]; omega
  rw [walkLen_parent (by omega), hpar]

lemma walkLen_child_right (p : Nat) : walkLen (2 * p + 2) = walkLen p + 1 := by
  have hpar : GetParentIndex (2 * p + 2) = p := by
    simp only [GetParentIndex]; omega
  rw [walkLen_parent (by omega), hpar]

lemma chainMem_parent_of_mem : ∀ j q, chainMem j q = true →
    GetParentIndex q = 0 ∨ chainMem j (GetParentIndex q) = true := by
  intro j
  induction j using Nat.strong_induction_on with
  | _ j ih =>
    intro q hq
    by_cases hj : j = 0
    · subst hj; rw [chainMem_zero] at hq; cases hq
    · rw [chainMem_step hj] at hq
      rcases Bool.or_eq_true_iff.mp hq with h1 | h1
      · have hqj : q = j := by simpa using h1
        subst hqj
        by_cases hpj : GetParentIndex q = 0
        · exact Or.inl hpj
        · exact Or.inr (chainMem_of_parent hj (chainMem_self hpj))
      · rcases ih _ (parent_lt hj) q h1 with h2 | h2
        · exact Or.inl h2
        · exact Or.inr (chainMem_of_parent hj h2)

/-- C6: every tree returned by `NewEmptyTree d v` satisfies the invariant
that every internal node at index `p` stores
`H (Nodes[2p+1]) (Nodes[2p+2])`, and every successful `SetLeaf` on a tree
satisfying the invariant preserves it. -/
theorem hash_invariant_new_and_preserved {H : Nat → Nat → Nat}
    {d v i x : Nat} {t t₀ t₁ : Tree}
    (hnew : NewEmptyTree H d v = some t) (hinv : hashInvariant H t₀)
    (hset : t₀.SetLeaf H i x = some t₁) :
    hashInvariant H t ∧ hashInvariant H t₁ := by
  constructor
  · obtain ⟨hd, hlen, hpat⟩ := newEmptyTree_char hnew
    have hpow : 2 ^ d = 2 * 2 ^ (d - 1) := by
      rw [← pow_succ']
      congr 1
      omega
    intro p hp hpc
    rw [hlen] at hp hpc
    have hp1 : p + 1 < 2 ^ (d - 1) := by omega
    rw [hpat p (by omega), hpat (2 * p + 1) (by omega),
      hpat (2 * p + 2) (by omega), walkLen_child_left, walkLen_child_right]
    have hwlt : walkLen p < d - 1 := walkLen_lt_of_lt (d - 1) p hp1
    have he : d - 1 - walkLen p = (d - 1 - (walkLen p + 1)) + 1 := by omega
    rw [he]
    rfl
  · obtain ⟨hiv, hlen3, hj1, hjlt, hleneq, hframe, hleaf, hpost⟩ :=
      setLeaf_char hset
    intro p hp hpc
    rw [hleneq] at hp hpc
    by_cases hcase : chainMem (GetParentIndex (leafPos t₀ i)) p = true ∨ p = 0
    · exact hpost p hcase
    · push_neg at hcase
      obtain ⟨hc1, hc2⟩ := hcase
      have hc1' : chainMem (GetParentIndex (leafPos t₀ i)) p = false := by
        cases hcc : chainMem (GetParentIndex (leafPos t₀ i)) p
        · rfl
        · exact absurd hcc hc1
      have hj₀eq : leafPos t₀ i =
          t₀.Nodes.length - (t₀.Nodes.length + 1) / 2 + i := rfl
      have hpj₀ : p ≠ leafPos t₀ i := by
        intro he
        rw [← he] at hj₀eq
        omega
      have hchain : chainMem (leafPos t₀ i) p = false := by
        rw [chainMem_step (show leafPos t₀ i ≠ 0 by omega)]
        have hbeq : (p == leafPos t₀ i) = false := by
          simpa using hpj₀
        rw [hbeq, hc1']
        rfl
      have hchild : ∀ c, (c = 2 * p + 1 ∨ c = 2 * p + 2) →
          chainMem (leafPos t₀ i) c = false := by
        intro c hcor
        cases hcc : chainMem (leafPos t₀ i) c
        · rfl
        · exfalso
          have hparc : GetParentIndex c = p := by
            rcases hcor with h | h <;> subst h <;>
              (simp only [GetParentIndex]; omega)
          rcases chainMem_parent_of_mem _ _ hcc with h2 | h2
          · rw [hparc] at h2
            exact hc2 h2
          · rw [hparc] at h2
            rw [h2] at hchain
            cases hchain
      rw [hframe p hchain hc2,
        hframe (2 * p + 1) (hchild _ (Or.inl rfl)) (by omega),
        hframe (2 * p + 2) (hchild _ (Or.inr rfl)) (by omega)]
      exact hinv p (by omega) (by omega)

end Merkle

namespace Merkle

lemma list_eq_of_getD {l₁ l₂ : List Nat} (hlen : l₁.length = l₂.length)
    (h : ∀ k, k < l₁.length → l₁.getD k 0 = l₂.getD k 0) : l₁ = l₂ := by
  apply List.ext_get hlen
  intro n h₁ h₂
  have hn := h n h₁
  rw [List.getD_eq_getElem?_getD, List.getD_eq_getElem?_getD,
    List.getElem?_eq_getElem h₁, List.getElem?_eq_getElem h₂] at hn
  simpa using hn

/-- C2 (amended): for every tree of depth `d ≥ 1`, valid leaf index `i` and
value `x`, after `SetLeaf i x` succeeds, combining `x` with the sibling
entries of `GetProof i` over the first `d − 1` path entries — at level `k`
computing `H current sibling` when bit `k` of `Indices` is 1 and
`H sibling current` when bit `k` is 0, the mirror image of the claim's
combination — yields the tree's current root.  (A set bit marks an odd,
i.e. first-argument, current node; the claim's order reconstructs a wrong
value, see the counterexample.) -/
theorem setLeaf_proof_reconstructs_root {H : Nat → Nat → Nat} {t t' : Tree}
    {d i x : Nat} (hd : 1 ≤ d) (hlen : t.Nodes.length = 2 ^ d - 1)
    (hi : i < 2 ^ (d - 1)) (hset : t.SetLeaf H i x = some t') :
    ∃ p r, t'.GetProof i = some p ∧ t'.Root = some r ∧
      reconstructRoot H x (p.Path.take (d - 1)) p.Indices = r := by
  obtain ⟨hiv, hlen3, hj1, hjlt, hleneq, hframe, hleaf, hpost⟩ :=
    setLeaf_char hset
  have hlen' : t'.Nodes.length = 2 ^ d - 1 := by rw [hleneq, hlen]
  have hleafpos_eq : leafPos t' i = leafPos t i := by
    rw [leafPos, leafPos, Tree.GetLeavesAmount, Tree.GetLeavesAmount, hleneq]
  obtain ⟨p, hp, hind, hplen, hsib, hroot⟩ := getProof_char hd hlen' hi
  have hok : chainOK H t'.Nodes (leafPos t i) :=
    chainOK_of_eqs (by simpa using hpost 0 (Or.inr rfl)) _
      (fun q hq => hpost q (Or.inl hq))
  have hwl' : walkLen (leafPos t' i) = d - 1 := walkLen_leafPos hd hlen' hi
  have htake : p.Path.take (d - 1) = pathSiblings t'.Nodes (leafPos t' i) := by
    apply list_eq_of_getD
    · rw [List.length_take, hplen, pathSiblings_length, hwl']
      omega
    · intro k hk
      have hk' : k < d - 1 := by
        rw [List.length_take, hplen] at hk
        omega
      rw [List.getD_eq_getElem?_getD, List.getElem?_take, if_pos hk',
        ← List.getD_eq_getElem?_getD, hsib k hk',
        pathSiblings_getD k _ (by rw [hwl']; omega)]
  refine ⟨p, t'.Nodes.getD 0 0, hp, ?_, ?_⟩
  · have h1 : (1:Nat) ≤ 2 ^ d - 1 := by
      have := Nat.one_lt_two_pow_iff.mpr (show d ≠ 0 by omega)
      omega
    exact getElem?_eq_getD (by omega)
  · rw [htake, hind, hleafpos_eq, ← hleaf]
    exact reconstructRoot_eq H t'.Nodes (leafPos t i) hok

/-- Witness for C2 (amended) at the depth-2 tree `[1, 0, 0]`. -/
theorem setLeaf_proof_reconstructs_root_witness :
    1 ≤ 2 ∧ (Tree.mk [1, 0, 0]).Nodes.length = 2 ^ 2 - 1 ∧ 0 < 2 ^ (2 - 1) ∧
    (Tree.mk [1, 0, 0]).SetLeaf testHash 0 5 = some ⟨[6, 5, 0]⟩ ∧
    (∃ p r, (Tree.mk [6, 5, 0]).GetProof 0 = some p ∧
      (Tree.mk [6, 5, 0]).Root = some r ∧
      reconstructRoot testHash 5 (p.Path.take (2 - 1)) p.Indices = r) := by
  have hset : (Tree.mk [1, 0, 0]).SetLeaf testHash 0 5 = some ⟨[6, 5, 0]⟩ := by
    simp [Tree.SetLeaf, Tree.GetLeavesAmount, setLeafAncestors, listWrite,
      GetParentIndex, computeChildrenHash, getChildrenOf, computeNodeHash,
      testHash, uint256Bound]
  exact ⟨by norm_num, by norm_num, by norm_num, hset,
    setLeaf_proof_reconstructs_root (by norm_num) (by norm_num) (by norm_num)
      hset⟩

/-- C2 counterexample: with the combination order exactly as the claim
words it (bit `k` = 1 ↦ `Hash(sibling, current)`), the depth-2 example
recombines to 11 while the root is 6. -/
theorem reconstructRootSpec_cex :
    (Tree.mk [1, 0, 0]).SetLeaf testHash 0 5 = some ⟨[6, 5, 0]⟩ ∧
    (Tree.mk [6, 5, 0]).GetProof 0 = some ⟨[0, 6], 1⟩ ∧
    (Tree.mk [6, 5, 0]).Root = some 6 ∧
    reconstructRootSpec testHash 5 ([0, 6].take (2 - 1)) 1 = 11 ∧
    (11 : Nat) ≠ 6 := by
  refine ⟨?_, ?_, by decide, by decide, by decide⟩
  · simp [Tree.SetLeaf, Tree.GetLeavesAmount, setLeafAncestors, listWrite,
      GetParentIndex, computeChildrenHash, getChildrenOf, computeNodeHash,
      testHash, uint256Bound]
  · simp [Tree.GetProof, Tree.GetLeavesAmount, Tree.Root, getProofLoop,
      GetParentIndex, GetSiblingIndex, IsRightChild, listWrite, Nat.log2]

/-! ### C10: frame property -/

lemma pathNode_of_zero : ∀ m, pathNode 0 m = 0
  | 0 => rfl
  | m + 1 => pathNode_of_zero m

lemma pathNode_ne_zero : ∀ k j, k < walkLen j → pathNode j k ≠ 0 := by
  intro k
  induction k with
  | zero =>
    intro j hk
    rw [pathNode_zero]
    intro he
    subst he
    rw [walkLen_zero] at hk
    omega
  | succ k ih =>
    intro j hk
    have hj : j ≠ 0 := by
      intro he; subst he; rw [walkLen_zero] at hk; omega
    rw [pathNode_succ]
    exact ih _ (by rw [walkLen_parent hj] at hk; omega)

lemma pathNode_succ' : ∀ k j, pathNode j (k + 1) = GetParentIndex (pathNode j k) := by
  intro k
  induction k with
  | zero => intro j; rfl
  | succ k ih =>
    intro j
    rw [pathNode_succ, ih, ← pathNode_succ]

lemma sibling_ne_zero {a : Nat} (ha : a ≠ 0) : GetSiblingIndex a ≠ 0 := by
  by_cases h : a % 2 = 0
  · rw [sibling_even h]; omega
  · rw [sibling_odd (by omega)]; omega

lemma parent_sibling {a : Nat} (_ha : a ≠ 0) :
    GetParentIndex (GetSiblingIndex a) = GetParentIndex a := by
  by_cases h : a % 2 = 0
  · rw [sibling_even h]; simp only [GetParentIndex]; omega
  · rw [sibling_odd (by omega)]; simp only [GetParentIndex]; omega

lemma chainMem_pathNode : ∀ j q, chainMem j q = true → ∃ m, pathNode j m = q := by
  intro j
  induction j using Nat.strong_induction_on with
  | _ j ih =>
    intro q hq
    by_cases hj : j = 0
    · subst hj; rw [chainMem_zero] at hq; cases hq
    · rw [chainMem_step hj] at hq
      rcases Bool.or_eq_true_iff.mp hq with h1 | h1
      · have hqj : q = j := by simpa using h1
        exact ⟨0, by rw [pathNode_zero, hqj]⟩
      · obtain ⟨m, hm⟩ := ih _ (parent_lt hj) q h1
        exact ⟨m + 1, by rw [pathNode_succ, hm]⟩

/-- C10 (amended): for every pair of valid leaf indices `i`, `j` whose
leaf-to-root paths share no node below the root, and every value `x`,
`SetLeaf i x` leaves the first `d − 2` sibling entries of `GetProof j`
unchanged.  (The claim's "all sibling entries" fails: the entry at level
`d − 2` is the root's other child, an ancestor of `i` that is recomputed —
see the counterexample.) -/
theorem setLeaf_frame_disjoint_paths {H : Nat → Nat → Nat} {t t' : Tree}
    {d i j x : Nat} (hd : 1 ≤ d) (hlen : t.Nodes.length = 2 ^ d - 1)
    (_hi : i < 2 ^ (d - 1)) (hj : j < 2 ^ (d - 1))
    (hdisj : ∀ m m', pathNode (leafPos t i) m = pathNode (leafPos t j) m' →
      pathNode (leafPos t i) m = 0)
    (hset : t.SetLeaf H i x = some t') :
    ∃ p p', t.GetProof j = some p ∧ t'.GetProof j = some p' ∧
      ∀ k, k < d - 2 → p'.Path.getD k 0 = p.Path.getD k 0 := by
  obtain ⟨hiv, hlen3, hj1, hjlt, hleneq, hframe, hleaf, hpost⟩ :=
    setLeaf_char hset
  have hlen' : t'.Nodes.length = 2 ^ d - 1 := by rw [hleneq, hlen]
  have hleafpos_eq : leafPos t' j = leafPos t j := by
    rw [leafPos, leafPos, Tree.GetLeavesAmount, Tree.GetLeavesAmount, hleneq]
  obtain ⟨p, hp, _, _, hsib, _⟩ := getProof_char hd hlen hj
  obtain ⟨p', hp', _, _, hsib', _⟩ := getProof_char hd hlen' hj
  have hwl : walkLen (leafPos t j) = d - 1 := walkLen_leafPos hd hlen hj
  refine ⟨p, p', hp, hp', fun k hk => ?_⟩
  rw [hsib' k (by omega), hsib k (by omega), hleafpos_eq]
  have hane : pathNode (leafPos t j) k ≠ 0 :=
    pathNode_ne_zero k _ (by rw [hwl]; omega)
  apply hframe
  · cases hcc : chainMem (leafPos t i) (GetSiblingIndex (pathNode (leafPos t j) k))
    · rfl
    · exfalso
      rcases chainMem_parent_of_mem _ _ hcc with h2 | h2
      · rw [parent_sibling hane, ← pathNode_succ'] at h2
        exact pathNode_ne_zero (k + 1) _ (by rw [hwl]; omega) h2
      · rw [parent_sibling hane] at h2
        obtain ⟨m, hm⟩ := chainMem_pathNode _ _ h2
        have h0 := hdisj m (k + 1) (by rw [hm, pathNode_succ'])
        rw [h0] at hm
        have := (chainMem_bounds _ _ h2).1
        rw [← hm] at this
        omega
  · exact sibling_ne_zero hane

end Merkle

namespace Merkle

/-- Witness for C10 (amended) at the depth-3 all-zero tree, leaves 0 and 2. -/
theorem setLeaf_frame_disjoint_paths_witness :
    1 ≤ 3 ∧ (Tree.mk [0, 0, 0, 0, 0, 0, 0]).Nodes.length = 2 ^ 3 - 1 ∧
    0 < 2 ^ (3 - 1) ∧ 2 < 2 ^ (3 - 1) ∧
    (∀ m m', pathNode (leafPos (Tree.mk [0, 0, 0, 0, 0, 0, 0]) 0) m =
        pathNode (leafPos (Tree.mk [0, 0, 0, 0, 0, 0, 0]) 2) m' →
      pathNode (leafPos (Tree.mk [0, 0, 0, 0, 0, 0, 0]) 0) m = 0) ∧
    (Tree.mk [0, 0, 0, 0, 0, 0, 0]).SetLeaf testHash 0 5 =
      some ⟨[7, 6, 0, 5, 0, 0, 0]⟩ ∧
    (∃ p p', (Tree.mk [0, 0, 0, 0, 0, 0, 0]).GetProof 2 = some p ∧
      (Tree.mk [7, 6, 0, 5, 0, 0, 0]).GetProof 2 = some p' ∧
      ∀ k, k < 3 - 2 → p'.Path.getD k 0 = p.Path.getD k 0) := by
  have h3 : ∀ m, pathNode 3 m = if m = 0 then 3 else if m = 1 then 1 else 0 := by
    intro m
    match m with
    | 0 => rfl
    | 1 => rfl
    | (m + 2) =>
      rw [if_neg (by omega), if_neg (by omega)]
      exact pathNode_of_zero m
  have h5 : ∀ m, pathNode 5 m = if m = 0 then 5 else if m = 1 then 2 else 0 := by
    intro m
    match m with
    | 0 => rfl
    | 1 => rfl
    | (m + 2) =>
      rw [if_neg (by omega), if_neg (by omega)]
      exact pathNode_of_zero m
  have hdisj : ∀ m m',
      pathNode (leafPos (Tree.mk [0, 0, 0, 0, 0, 0, 0]) 0) m =
        pathNode (leafPos (Tree.mk [0, 0, 0, 0, 0, 0, 0]) 2) m' →
      pathNode (leafPos (Tree.mk [0, 0, 0, 0, 0, 0, 0]) 0) m = 0 := by
    intro m m' h
    have h' : pathNode 3 m = pathNode 5 m' := h
    show pathNode 3 m = 0
    rw [h3, h5] at h'
    rw [h3]
    split_ifs at h' ⊢ <;> omega
  have hset : (Tree.mk [0, 0, 0, 0, 0, 0, 0]).SetLeaf testHash 0 5 =
      some ⟨[7, 6, 0, 5, 0, 0, 0]⟩ := by
    simp [Tree.SetLeaf, Tree.GetLeavesAmount, setLeafAncestors, listWrite,
      GetParentIndex, computeChildrenHash, getChildrenOf, computeNodeHash,
      testHash, uint256Bound]
  exact ⟨by norm_num, by norm_num, by norm_num, by norm_num, hdisj, hset,
    setLeaf_frame_disjoint_paths (by norm_num) (by norm_num) (by norm_num)
      (by norm_num) hdisj hset⟩

/-- C10 counterexample: in the depth-2 tree `[1, 0, 0]` the paths of leaves
0 and 1 share only the root, yet `SetLeaf 0 5` changes the (single) sibling
entry of `GetProof 1` from 0 to 5 — the recorded sibling is the root's other
child, an ancestor of leaf 0. -/
theorem setLeaf_frame_cex :
    (∀ m m', pathNode (leafPos (Tree.mk [1, 0, 0]) 0) m =
        pathNode (leafPos (Tree.mk [1, 0, 0]) 1) m' →
      pathNode (leafPos (Tree.mk [1, 0, 0]) 0) m = 0) ∧
    (Tree.mk [1, 0, 0]).SetLeaf testHash 0 5 = some ⟨[6, 5, 0]⟩ ∧
    (Tree.mk [1, 0, 0]).GetProof 1 = some ⟨[0, 1], 0⟩ ∧
    (Tree.mk [6, 5, 0]).GetProof 1 = some ⟨[5, 6], 0⟩ ∧
    (Proof.mk [5, 6] 0).Path.getD 0 0 ≠ (Proof.mk [0, 1] 0).Path.getD 0 0 := by
  have h1 : ∀ m, pathNode 1 m = if m = 0 then 1 else 0 := by
    intro m
    match m with
    | 0 => rfl
    | (m + 1) =>
      rw [if_neg (by omega)]
      exact pathNode_of_zero m
  have h2 : ∀ m, pathNode 2 m = if m = 0 then 2 else 0 := by
    intro m
    match m with
    | 0 => rfl
    | (m + 1) =>
      rw [if_neg (by omega)]
      exact pathNode_of_zero m
  refine ⟨?_, ?_, ?_, ?_, by decide⟩
  · intro m m' h
    have h' : pathNode 1 m = pathNode 2 m' := h
    show pathNode 1 m = 0
    rw [h1, h2] at h'
    rw [h1]
    split_ifs at h' ⊢ <;> omega
  · simp [Tree.SetLeaf, Tree.GetLeavesAmount, setLeafAncestors, listWrite,
      GetParentIndex, computeChildrenHash, getChildrenOf, computeNodeHash,
      testHash, uint256Bound]
  · simp [Tree.GetProof, Tree.GetLeavesAmount, Tree.Root, getProofLoop,
      GetParentIndex, GetSiblingIndex, IsRightChild, listWrite, Nat.log2]
  · simp [Tree.GetProof, Tree.GetLeavesAmount, Tree.Root, getProofLoop,
      GetParentIndex, GetSiblingIndex, IsRightChild, listWrite, Nat.log2]

end Merkle

namespace ZkCertificate

/-! ### Claim theorems for the certificate binding protocol -/

/-- C7: if the content's `Hash()` succeeds and the provider signature does
not verify against the provider public key over
`(contentHash, holderCommitment)`, then certificate construction `New`
fails with the invalid-signature error and returns no certificate; `New`
returns a certificate only when the signature verifies. -/
theorem new_requires_valid_signature {T : Type}
    (poseidonHash : List Int → Option Int)
    (verifyPoseidon : PublicKey → Int → Signature → Bool)
    (contentHashFn : T → Option Int) (contentStandardFn : T → String)
    (holderCommitment : Int) (content : T) (providerPublicKey : PublicKey)
    (providerSignature : Signature) (salt expirationDateUnix : Int)
    {ch : Int} (hch : contentHashFn content = some ch) :
    (VerifySignature poseidonHash verifyPoseidon providerPublicKey ch
        holderCommitment providerSignature = some false →
      New poseidonHash verifyPoseidon contentHashFn contentStandardFn
        holderCommitment content providerPublicKey providerSignature salt
        expirationDateUnix = .error "invalid signature") ∧
    (∀ cert, New poseidonHash verifyPoseidon contentHashFn contentStandardFn
        holderCommitment content providerPublicKey providerSignature salt
        expirationDateUnix = .ok cert →
      VerifySignature poseidonHash verifyPoseidon providerPublicKey ch
        holderCommitment providerSignature = some true) := by
  constructor
  · intro hv
    rw [New, hch]
    dsimp only
    rw [hv]
  · intro cert hok
    rw [New, hch] at hok
    dsimp only at hok
    rcases hv : VerifySignature poseidonHash verifyPoseidon providerPublicKey
        ch holderCommitment providerSignature with _ | b
    · rw [hv] at hok; cases hok
    · cases b
      · rw [hv] at hok; cases hok
      · rfl

/-- Witness for C7: a rejecting verifier makes `New` fail with the
invalid-signature error. -/
theorem new_requires_valid_signature_witness :
    (fun _ : Unit => some (1 : Int)) () = some 1 ∧
    VerifySignature testPoseidon testVerifyFalse ⟨0, 0⟩ 1 0 ⟨⟨0, 0⟩, 0⟩ =
      some false ∧
    New testPoseidon testVerifyFalse (fun _ : Unit => some 1) (fun _ => "std")
      0 () ⟨0, 0⟩ ⟨⟨0, 0⟩, 0⟩ 0 0 = .error "invalid signature" :=
  ⟨rfl, rfl,
    (new_requires_valid_signature testPoseidon testVerifyFalse
      (fun _ : Unit => some 1) (fun _ => "std") 0 () ⟨0, 0⟩ ⟨⟨0, 0⟩, 0⟩ 0 0
      rfl).1 rfl⟩

/-- C8: for every certificate returned by `New`, its `LeafHash` field is
the field hash of exactly the nine elements `(contentHash, publicKey.X,
publicKey.Y, signature.S, signature.R8.X, signature.R8.Y,
holderCommitment, salt, expiration-as-Unix-seconds)` in exactly this
order, and its `DID` field is `"did:" ++ standard ++ ":" ++` the decimal
string of the leaf hash. -/
theorem new_leafHash_and_did {T : Type}
    (poseidonHash : List Int → Option Int)
    (verifyPoseidon : PublicKey → Int → Signature → Bool)
    (contentHashFn : T → Option Int) (contentStandardFn : T → String)
    (holderCommitment : Int) (content : T) (providerPublicKey : PublicKey)
    (providerSignature : Signature) (salt expirationDateUnix : Int)
    {cert : Certificate T}
    (hok : New poseidonHash verifyPoseidon contentHashFn contentStandardFn
      holderCommitment content providerPublicKey providerSignature salt
      expirationDateUnix = .ok cert) :
    poseidonHash [cert.ContentHash, cert.Provider.PublicKey.X,
        cert.Provider.PublicKey.Y, cert.Provider.Signature.S,
        cert.Provider.Signature.R8.X, cert.Provider.Signature.R8.Y,
        cert.HolderCommitment, cert.RandomSalt, cert.ExpirationDate] =
      some cert.LeafHash ∧
    cert.DID = "did:" ++ cert.Standard ++ ":" ++ toString cert.LeafHash := by
  rw [New] at hok
  rcases hch : contentHashFn content with _ | ch
  · rw [hch] at hok; cases hok
  · rw [hch] at hok
    dsimp only at hok
    rcases hv : VerifySignature poseidonHash verifyPoseidon providerPublicKey
        ch holderCommitment providerSignature with _ | b
    · rw [hv] at hok; cases hok
    · cases b
      · rw [hv] at hok; cases hok
      · rw [hv] at hok
        dsimp only at hok
        rcases hlh : LeafHash poseidonHash ch providerPublicKey
            providerSignature holderCommitment salt expirationDateUnix
          with _ | lh
        · rw [hlh] at hok; cases hok
        · rw [hlh] at hok
          dsimp only at hok
          cases hok
          constructor
          · simpa [LeafHash] using hlh
          · rfl

set_option maxHeartbeats 4000000 in
lemma new_witness_input_eval : New testPoseidon testVerifyTrue
      (fun _ : Unit => some (1 : Int))
      (fun _ => "std") 7 () ⟨2, 3⟩ ⟨⟨4, 5⟩, 6⟩ 8 9 = .ok witnessCert := rfl

/-- Witness for C8 at concrete inputs: the nine elements fold to leaf hash
99 and the DID is assembled from the standard tag and its decimal string. -/
theorem new_leafHash_and_did_witness :
    New testPoseidon testVerifyTrue (fun _ : Unit => some (1 : Int))
        (fun _ => "std") 7 () ⟨2, 3⟩ ⟨⟨4, 5⟩, 6⟩ 8 9 = .ok witnessCert ∧
    (testPoseidon [witnessCert.ContentHash, witnessCert.Provider.PublicKey.X,
        witnessCert.Provider.PublicKey.Y, witnessCert.Provider.Signature.S,
        witnessCert.Provider.Signature.R8.X,
        witnessCert.Provider.Signature.R8.Y, witnessCert.HolderCommitment,
        witnessCert.RandomSalt, witnessCert.ExpirationDate] =
      some witnessCert.LeafHash ∧
      witnessCert.DID =
        "did:" ++ witnessCert.Standard ++ ":" ++ toString witnessCert.LeafHash) :=
  ⟨new_witness_input_eval, new_leafHash_and_did testPoseidon testVerifyTrue
    (fun _ : Unit => some (1 : Int)) (fun _ => "std") 7 () ⟨2, 3⟩
    ⟨⟨4, 5⟩, 6⟩ 8 9 new_witness_input_eval⟩

/-! ### C9: textual decoding -/

lemma parseDigits_isSome (l : List Char) :
    (Merkle.parseDigits l).isSome = (!l.isEmpty && l.all Char.isDigit) := by
  rw [Merkle.parseDigits]
  split_ifs with h1 h2 <;> simp_all

lemma setStringBase10_isSome (s : String) :
    (setStringBase10 s).isSome = isValidIntegerString s := by
  rw [setStringBase10, isValidIntegerString]
  cases hdata : s.data with
  | nil => rfl
  | cons c rest =>
    dsimp only
    by_cases hc : c = '-'
    · rw [if_pos hc, if_pos (Or.inl hc), Option.isSome_map', parseDigits_isSome]
    · by_cases hc2 : c = '+'
      · rw [if_neg hc, if_pos hc2, if_pos (Or.inr hc2), Option.isSome_map',
          parseDigits_isSome]
      · rw [if_neg hc, if_neg hc2, if_neg (by tauto), Option.isSome_map',
          parseDigits_isSome]
        simp

/-- C9 (amended): every string that is not a valid decimal integer, and
every negative decimal string, is rejected by `TreeNode.UnmarshalText`; and
`ProviderData.UnmarshalJSON` rejects any provider-data object one of whose
`ax`, `bx`, `s`, `r8x`, `r8y` fields is not a valid (optionally signed)
decimal integer.  (Unlike the claim, `UnmarshalJSON` accepts negative
decimal strings, because `big.Int.SetString` parses a sign: see the
counterexample.) -/
theorem decoding_rejects :
    (∀ s : String, isValidIntegerString s = false ∨
        isNegativeIntegerString s = true →
      Merkle.TreeNode.UnmarshalText s = none) ∧
    (∀ dto : providerDataDTO,
      (isValidIntegerString dto.Ax = false ∨
        isValidIntegerString dto.Bx = false ∨
        isValidIntegerString dto.R8x = false ∨
        isValidIntegerString dto.R8y = false ∨
        isValidIntegerString dto.S = false) →
      (ProviderData.UnmarshalJSON dto).isOk = false) := by
  constructor
  · intro s h
    rw [Merkle.TreeNode.UnmarshalText, Merkle.fromDecimal]
    suffices hp : Merkle.parseDigits s.data = none by rw [hp]
    rw [isValidIntegerString] at h
    rw [isNegativeIntegerString] at h
    cases hdata : s.data with
    | nil => rfl
    | cons c rest =>
      rw [hdata] at h
      dsimp only at h
      by_cases hc : c = '-'
      · subst hc
        simp [Merkle.parseDigits]
      · by_cases hc2 : c = '+'
        · subst hc2
          simp [Merkle.parseDigits]
        · rw [if_neg (by tauto)] at h
          rcases h with h | h
          · rw [Merkle.parseDigits, if_neg (by simp), if_neg (by simp [h])]
          · simp [hc] at h
  · intro dto h
    rw [ProviderData.UnmarshalJSON]
    rcases hAx : setStringBase10 dto.Ax with _ | ax
    · rfl
    · dsimp only
      rcases hBx : setStringBase10 dto.Bx with _ | bx
      · rfl
      · dsimp only
        rcases hR8x : setStringBase10 dto.R8x with _ | r8x
        · rfl
        · dsimp only
          rcases hR8y : setStringBase10 dto.R8y with _ | r8y
          · rfl
          · dsimp only
            rcases hS : setStringBase10 dto.S with _ | sv
            · rfl
            · exfalso
              have vAx : isValidIntegerString dto.Ax = true := by
                rw [← setStringBase10_isSome, hAx]; rfl
              have vBx : isValidIntegerString dto.Bx = true := by
                rw [← setStringBase10_isSome, hBx]; rfl
              have vR8x : isValidIntegerString dto.R8x = true := by
                rw [← setStringBase10_isSome, hR8x]; rfl
              have vR8y : isValidIntegerString dto.R8y = true := by
                rw [← setStringBase10_isSome, hR8y]; rfl
              have vS : isValidIntegerString dto.S = true := by
                rw [← setStringBase10_isSome, hS]; rfl
              rcases h with h | h | h | h | h <;> simp_all

/-- Witness for C9 (amended): `"abc"` is rejected by both decoders, and a
DTO with a malformed `ax` is rejected. -/
theorem decoding_rejects_witness :
    (isValidIntegerString "abc" = false ∨
      isNegativeIntegerString "abc" = true) ∧
    Merkle.TreeNode.UnmarshalText "abc" = none ∧
    (isValidIntegerString "abc" = false ∨ isValidIntegerString "0" = false ∨
      isValidIntegerString "0" = false ∨ isValidIntegerString "0" = false ∨
      isValidIntegerString "0" = false) ∧
    (ProviderData.UnmarshalJSON ⟨"abc", "0", "0", "0", "0"⟩).isOk = false :=
  ⟨Or.inl (by decide), decoding_rejects.1 "abc" (Or.inl (by decide)),
    Or.inl (by decide),
    decoding_rejects.2 ⟨"abc", "0", "0", "0", "0"⟩ (Or.inl (by decide))⟩

/-- C9 counterexample: the negative decimal string `"-1"` in the `ax` field
is accepted by `ProviderData.UnmarshalJSON` (with value `-1`), although the
claim says any negative string must be rejected. -/
theorem unmarshalJSON_negative_accepted_cex :
    isNegativeIntegerString "-1" = true ∧
    ProviderData.UnmarshalJSON ⟨"-1", "0", "0", "0", "0"⟩ =
      .ok ⟨⟨-1, 0⟩, ⟨⟨0, 0⟩, 0⟩⟩ :=
  ⟨by decide, by rfl⟩

end ZkCertificate

namespace Merkle

/-- Witness for C6 at the depth-2 tree built from leaf value 0, with
`SetLeaf 0 5` producing `[6, 5, 0]`. -/
theorem hash_invariant_witness :
    NewEmptyTree testHash 2 0 = some ⟨[1, 0, 0]⟩ ∧
    hashInvariant testHash ⟨[1, 0, 0]⟩ ∧
    (Tree.mk [1, 0, 0]).SetLeaf testHash 0 5 = some ⟨[6, 5, 0]⟩ ∧
    (hashInvariant testHash ⟨[1, 0, 0]⟩ ∧ hashInvariant testHash ⟨[6, 5, 0]⟩) := by
  have hset : (Tree.mk [1, 0, 0]).SetLeaf testHash 0 5 = some ⟨[6, 5, 0]⟩ := by
    simp [Tree.SetLeaf, Tree.GetLeavesAmount, setLeafAncestors, listWrite,
      GetParentIndex, computeChildrenHash, getChildrenOf, computeNodeHash,
      testHash, uint256Bound]
  have hinv : hashInvariant testHash ⟨[1, 0, 0]⟩ := by
    intro p hp hpc
    have hp0 : p = 0 := by
      simp at hpc
      omega
    subst hp0
    decide
  exact ⟨by decide, hinv, hset,
    @hash_invariant_new_and_preserved testHash 2 0 0 5 ⟨[1, 0, 0]⟩
      ⟨[1, 0, 0]⟩ ⟨[6, 5, 0]⟩ (by decide) hinv hset⟩

end Merkle
